import Mathlib

/-!
Genetic-algorithm TSP: `Chromosome` and `Deme`.

A shallow embedding of `src/chromosome.cc` and `src/deme.cc`.

* A `std::vector<unsigned>` is a `List Nat`; the tours handled here are far shorter than
  `2 ^ 32`, so no index or value wraps around.
* A call either returns (`Except.ok`) or stops with a `Fault`: a failed `assert`, an access
  outside a vector, or a random generator that was given too few draws to leave a resampling
  loop.
* Random generators are sequences of draws handed in from outside, consumed in program order.
* `double` fitness values are rationals (exact arithmetic).
-/

namespace TSP

/-- Why a call did not return. -/
inductive Fault where
  /-- an `assert` failed -/
  | assertion
  /-- a vector was read or written outside `[0, size)` -/
  | out_of_bounds
  /-- a resampling loop asked for more draws than were supplied -/
  | no_more_draws
  /-- a loop bound of the model was reached (shown below never to happen) -/
  | out_of_fuel
deriving DecidableEq, Repr

deriving instance DecidableEq for Except

/-- The data members of a `Chromosome` object that the member functions read:
`cities_ptr_->size()` and the permutation `order_`. -/
structure Chromosome where
  cities_size : Nat
  order_ : List Nat
deriving DecidableEq, Repr

/-- The loop of `is_valid` (chromosome.cc:122-126) over the sorted copy: `i` is the loop
index and the list is `perm_values` from index `i` on. -/
def is_valid_loop (range : Nat) : Nat → List Nat → Bool
  | _, [] => true
  | i, v :: rest =>
    if i > range then false
    else if i ≠ v then false
    else is_valid_loop range (i + 1) rest

/-- The function `Chromosome::is_valid` (chromosome.cc:114-127): sort a copy of `order_` and
compare it entry by entry with `0, 1, 2, ...`. -/
def Chromosome.is_valid (c : Chromosome) : Bool :=
  let perm_values := c.order_.insertionSort (· ≤ ·)
  let range := c.cities_size
  is_valid_loop range 0 perm_values

/-- The function `Chromosome::is_in_range` (chromosome.cc:132-142). `std::find` followed by
`std::distance` is `List.indexOf`: the position of the first occurrence, or `size()` when
the value does not occur. -/
def Chromosome.is_in_range (c : Chromosome) (value begin_ end_ : Nat) : Except Fault Bool :=
  if c.is_valid then
    let val_pos := c.order_.indexOf value
    if begin_ ≤ val_pos ∧ val_pos < end_ then .ok true else .ok false
  else .error .assertion

/-- Modelled from the spec: `Chromosome::clone` is declared in `chromosome.hh`, which is not
part of the sources at hand. The spec: "produce a new Individual with an identical tour (deep
copy of the sequence), the same City Catalog reference". -/
def Chromosome.clone (c : Chromosome) : Chromosome :=
  { cities_size := c.cities_size, order_ := c.order_ }

/-- The inner loop `while (p1->is_in_range(p2->order_[j], b, e)) ++j;`
(chromosome.cc:92-94). The list is `p2->order_` from index `j` on, so its head is
`p2->order_[j]`; at `j = size()` the read is outside the vector. Returns the final `j`. -/
def skip_in_range (p1 : Chromosome) (b e : Nat) : List Nat → Nat → Except Fault Nat
  | [], _ => .error .out_of_bounds
  | v :: rest, j =>
    match p1.is_in_range v b e with
    | .error f => .error f
    | .ok true => skip_in_range p1 b e rest (j + 1)
    | .ok false => .ok j

/-- The `for` loop of `create_crossover_child` (chromosome.cc:88-99). The first list is
`p1->order_` from index `i` on (empty exactly when `i = p1->order_.size()`), `j` is the
cursor into `p2->order_` and `child` is `child->order_`. -/
def crossover_loop (p1 p2 : Chromosome) (b e : Nat) :
    List Nat → Nat → Nat → List Nat → Except Fault (List Nat)
  | [], _, _, child => .ok child
  | x :: rest, i, j, child =>
    if j < p2.order_.length then
      if b ≤ i ∧ i < e then
        crossover_loop p1 p2 b e rest (i + 1) j (child.set i x)
      else
        match skip_in_range p1 b e (p2.order_.drop j) j with
        | .error f => .error f
        | .ok j' =>
          match p2.order_[j']? with
          | none => .error .assertion
          | some v => crossover_loop p1 p2 b e rest (i + 1) (j' + 1) (child.set i v)
    else .ok child

/-- The function `Chromosome::create_crossover_child` (chromosome.cc:78-103); it does not
read `this`. The result is the object the returned pointer points to. -/
def create_crossover_child (p1 p2 : Chromosome) (b e : Nat) : Except Fault Chromosome :=
  let child := p1.clone
  match crossover_loop p1 p2 b e p1.order_ 0 0 child.order_ with
  | .error f => .error f
  | .ok order =>
    let child : Chromosome := { child with order_ := order }
    if child.is_valid then .ok child else .error .assertion

/-! ### `mutate` and `recombine` -/

/-- The loop `while(pt1 == pt2) { pt2 = distribution(generator_); }` (chromosome.cc:37-39).
The list holds the draws the generator will return next. -/
def mutate_redraw (pt1 : Nat) : Nat → List Nat → Except Fault (Nat × List Nat)
  | pt2, [] => if pt1 = pt2 then .error .no_more_draws else .ok (pt2, [])
  | pt2, d :: ds => if pt1 = pt2 then mutate_redraw pt1 d ds else .ok (pt2, d :: ds)

/-- The call `std::iter_swap(order_.begin() + pt1, order_.begin() + pt2)`
(chromosome.cc:42). -/
def iter_swap (order_ : List Nat) (pt1 pt2 : Nat) : Except Fault (List Nat) :=
  match order_[pt1]?, order_[pt2]? with
  | some v1, some v2 => .ok ((order_.set pt1 v2).set pt2 v1)
  | _, _ => .error .out_of_bounds

/-- The function `Chromosome::mutate` (chromosome.cc:30-44). `draws` are the values that
`distribution(generator_)` returns, in order; the unused ones are handed back. -/
def Chromosome.mutate (c : Chromosome) (draws : List Nat) :
    Except Fault (Chromosome × List Nat) :=
  if c.is_valid then
    match draws with
    | pt1 :: pt2 :: ds =>
      match mutate_redraw pt1 pt2 ds with
      | .error f => .error f
      | .ok (pt2, ds) =>
        match iter_swap c.order_ pt1 pt2 with
        | .error f => .error f
        | .ok order =>
          let c' : Chromosome := { c with order_ := order }
          if c'.is_valid then .ok (c', ds) else .error .assertion
    | _ => .error .no_more_draws
  else .error .assertion

/-- The loop `while(e == 0) { e = distribution(generator_); }` (chromosome.cc:56). -/
def recombine_redraw_e : Nat → List Nat → Except Fault (Nat × List Nat)
  | e, [] => if e = 0 then .error .no_more_draws else .ok (e, [])
  | e, d :: ds => if e = 0 then recombine_redraw_e d ds else .ok (e, d :: ds)

/-- The loop `while(b >= e) { b = distribution(generator_); }` (chromosome.cc:57). -/
def recombine_redraw_b (e : Nat) : Nat → List Nat → Except Fault (Nat × List Nat)
  | b, [] => if b ≥ e then .error .no_more_draws else .ok (b, [])
  | b, d :: ds => if b ≥ e then recombine_redraw_b e d ds else .ok (b, d :: ds)

/-- The choice of the cut points in `recombine` (chromosome.cc:53-57). -/
def recombine_cut_points (draws : List Nat) : Except Fault ((Nat × Nat) × List Nat) :=
  match draws with
  | b :: e :: ds =>
    match recombine_redraw_e e ds with
    | .error f => .error f
    | .ok (e, ds) =>
      match recombine_redraw_b e b ds with
      | .error f => .error f
      | .ok (b, ds) => .ok ((b, e), ds)
  | _ => .error .no_more_draws

/-- The heap of chromosome objects. A `Chromosome*` is an address, that is an index into
this list. The program never deletes a chromosome, so the heap only grows. -/
abbrev Heap := List Chromosome

/-- The `new` inside `clone`: the object is placed at a fresh address. -/
def Heap.alloc (h : Heap) (c : Chromosome) : Nat × Heap :=
  (h.length, h ++ [c])

/-- The statement `auto child = create_crossover_child(p1, p2, b, e);` followed by
`while(child == other || child == this) { child = create_crossover_child(p1, p2, b, e); }`
(chromosome.cc:60-63 and 66-69). `child`, `self` and `other` are pointers and `==` compares
addresses. Every pass allocates one object; the first argument bounds the number of passes. -/
def recombine_child (p1 p2 : Chromosome) (b e self other : Nat) :
    Nat → Heap → Except Fault (Nat × Heap)
  | 0, _ => .error .out_of_fuel
  | fuel + 1, h =>
    match create_crossover_child p1 p2 b e with
    | .error f => .error f
    | .ok c =>
      let (child, h) := h.alloc c
      if child = other ∨ child = self then recombine_child p1 p2 b e self other fuel h
      else .ok (child, h)

/-- The statement `assert(child->is_valid())` (chromosome.cc:64 and 70). -/
def assert_valid_at (h : Heap) (child : Nat) : Except Fault Unit :=
  match h[child]? with
  | none => .error .out_of_bounds
  | some c => if c.is_valid then .ok () else .error .assertion

/-- The function `Chromosome::recombine` (chromosome.cc:48-73), called on the object at
address `self` with the pointer `other`. Returns the pair of child pointers, the heap and the unused
draws. Three passes are enough for either child loop: three fresh addresses in a row cannot
all be `self` or `other`. -/
def recombine (h : Heap) (self other : Nat) (draws : List Nat) :
    Except Fault ((Nat × Nat) × Heap × List Nat) :=
  match h[self]?, h[other]? with
  | some this, some that =>
    if ¬ this.is_valid then .error .assertion
    else if ¬ that.is_valid then .error .assertion
    else
      match recombine_cut_points draws with
      | .error f => .error f
      | .ok ((b, e), ds) =>
        match recombine_child that this b e self other 3 h with
        | .error f => .error f
        | .ok (child1, h1) =>
          match assert_valid_at h1 child1 with
          | .error f => .error f
          | .ok () =>
            match recombine_child this that b e self other 3 h1 with
            | .error f => .error f
            | .ok (child2, h2) =>
              match assert_valid_at h2 child2 with
              | .error f => .error f
              | .ok () => .ok ((child1, child2), h2, ds)
  | _, _ => .error .out_of_bounds

/-! ### `Deme` -/

/-- The function `Chromosome::get_fitness` (chromosome.cc:107-109).
`calculate_total_distance` is only declared in `chromosome.hh`; the total distance of a
tour is the parameter `total_distance`. -/
def Chromosome.get_fitness (total_distance : List Nat → ℚ) (c : Chromosome) : ℚ :=
  50 / total_distance c.order_

/-- The data members of a `Deme` object; `pop_` is a vector of pointers. -/
structure Deme where
  mut_rate_ : ℚ
  pop_size_ : Nat
  pop_ : List Nat
deriving DecidableEq, Repr

/-- Everything outside the `Deme` object that a generation step reads and writes: the heap,
the draws of the deme's generator (real numbers) and the draws of the chromosomes'
generators (integers), each in the order the program makes them. -/
structure World where
  heap : Heap
  rdraws : List ℚ
  idraws : List Nat
deriving DecidableEq, Repr

/-- The fitness `p->get_fitness()` of every pointer `p` of a population, in order. -/
def fitnesses (total_distance : List Nat → ℚ) (h : Heap) : List Nat → Except Fault (List ℚ)
  | [] => .ok []
  | p :: ps =>
    match h[p]? with
    | none => .error .out_of_bounds
    | some c =>
      match fitnesses total_distance h ps with
      | .error f => .error f
      | .ok fs => .ok (c.get_fitness total_distance :: fs)

/-- The first loop of `select_parent` (deme.cc:90-92) over the fitness values. The walk of
`select_parent` is written over any ordered field `K` of exact numbers; the program's
`double` values are read as rationals. -/
def fitness_sum {K : Type} [LinearOrderedField K] (fit : List K) : K :=
  fit.foldl (fun acc f => acc + f) 0

/-- The loop `while(partial_sum < fixed) { ++index; partial_sum += pop_[index]->get_fitness(); }`
(deme.cc:98-101). The list holds the fitness values of `pop_` after position `index`, so
it is empty exactly when `++index` leaves the vector. -/
def select_loop {K : Type} [LinearOrderedField K] (fixed : K) :
    List K → Int → K → Except Fault Int
  | [], index, partial_sum =>
    if partial_sum < fixed then .error .out_of_bounds else .ok index
  | f :: rest, index, partial_sum =>
    if partial_sum < fixed then select_loop fixed rest (index + 1) (partial_sum + f)
    else .ok index

/-- Lines 97-102 of `select_parent` on the fitness values `fit` of the population and the
drawn number `fixed`: the index at which `pop_` is read on return. `index` starts at `-1`;
`pop_[-1]` is outside the vector. -/
def select_parent_index {K : Type} [LinearOrderedField K] (fit : List K) (fixed : K) :
    Except Fault Nat :=
  match select_loop fixed fit (-1) 0 with
  | .error f => .error f
  | .ok index =>
    if 0 ≤ index ∧ index < fit.length then .ok index.toNat else .error .out_of_bounds

/-- The function `Deme::select_parent` (deme.cc:86-103); `fixed` is the number that
`distribution(generator_)` returns, a value of `[0, fitness_sum)`. Returns the pointer
`pop_[index]`. -/
def Deme.select_parent (total_distance : List Nat → ℚ) (h : Heap) (d : Deme) (fixed : ℚ) :
    Except Fault Nat :=
  match fitnesses total_distance h d.pop_ with
  | .error f => .error f
  | .ok fit =>
    match select_parent_index fit fixed with
    | .error f => .error f
    | .ok index =>
      match d.pop_[index]? with
      | none => .error .out_of_bounds
      | some p => .ok p

/-- The statement `auto parent = select_parent();` with the draw taken from the deme's generator. -/
def draw_parent (total_distance : List Nat → ℚ) (d : Deme) (w : World) :
    Except Fault (Nat × World) :=
  match w.rdraws with
  | [] => .error .no_more_draws
  | fixed :: rest =>
    match d.select_parent total_distance w.heap fixed with
    | .error f => .error f
    | .ok parent => .ok (parent, { w with rdraws := rest })

/-- The statements
`auto parent2 = select_parent(); while(parent1 == parent2) { parent2 = select_parent(); }`
(deme.cc:53-57); every call of `select_parent` takes one draw. -/
def select_other (total_distance : List Nat → ℚ) (d : Deme) (h : Heap) (parent1 : Nat) :
    List ℚ → Except Fault (Nat × List ℚ)
  | [] => .error .no_more_draws
  | fixed :: rest =>
    match d.select_parent total_distance h fixed with
    | .error f => .error f
    | .ok parent2 =>
      if parent1 = parent2 then select_other total_distance d h parent1 rest
      else .ok (parent2, rest)

/-- The statements `mut = distribution(generator_); if(mut < mut_rate_) { parent->mutate(); }`
(deme.cc:50-51 and 58-59). The mutation changes the object the pointer points to. -/
def maybe_mutate (d : Deme) (parent : Nat) (w : World) : Except Fault World :=
  match w.rdraws with
  | [] => .error .no_more_draws
  | mut_draw :: rest =>
    if mut_draw < d.mut_rate_ then
      match w.heap[parent]? with
      | none => .error .out_of_bounds
      | some c =>
        match c.mutate w.idraws with
        | .error f => .error f
        | .ok (c', idraws) =>
          .ok { heap := w.heap.set parent c', rdraws := rest, idraws := idraws }
    else .ok { w with rdraws := rest }

/-- The assignment `next_gen[i] = kid;` on a vector of pointers. -/
def store (next_gen : List Nat) (i kid : Nat) : Except Fault (List Nat) :=
  if i < next_gen.length then .ok (next_gen.set i kid) else .error .out_of_bounds

/-- The body of the `for` loop of `compute_next_generation` (deme.cc:46-64) at index `i`. -/
def generation_body (total_distance : List Nat → ℚ) (d : Deme) (i : Nat)
    (next_gen : List Nat) (w : World) : Except Fault (List Nat × World) :=
  match draw_parent total_distance d w with
  | .error f => .error f
  | .ok (parent1, w) =>
    match maybe_mutate d parent1 w with
    | .error f => .error f
    | .ok w =>
      match select_other total_distance d w.heap parent1 w.rdraws with
      | .error f => .error f
      | .ok (parent2, rest) =>
        match maybe_mutate d parent2 { w with rdraws := rest } with
        | .error f => .error f
        | .ok w =>
          match recombine w.heap parent1 parent2 w.idraws with
          | .error f => .error f
          | .ok (kids, heap, idraws) =>
            match store next_gen i kids.1 with
            | .error f => .error f
            | .ok next_gen =>
              match store next_gen (i + 1) kids.2 with
              | .error f => .error f
              | .ok next_gen =>
                .ok (next_gen, { heap := heap, rdraws := w.rdraws, idraws := idraws })

/-- The `for` loop of `compute_next_generation` (deme.cc:45-65): `i` advances by two per
pass, once inside the body and once in the loop header. The first argument bounds the
number of passes. -/
def generation_loop (total_distance : List Nat → ℚ) (d : Deme) :
    Nat → Nat → List Nat → World → Except Fault (List Nat × World)
  | 0, i, next_gen, w =>
    if i < d.pop_size_ then .error .out_of_fuel else .ok (next_gen, w)
  | fuel + 1, i, next_gen, w =>
    if i < d.pop_size_ then
      match generation_body total_distance d i next_gen w with
      | .error f => .error f
      | .ok (next_gen, w) => generation_loop total_distance d fuel (i + 1 + 1) next_gen w
    else .ok (next_gen, w)

/-- The function `Deme::compute_next_generation` (deme.cc:42-67). The loop makes at most `pop_size_`
passes. -/
def Deme.compute_next_generation (total_distance : List Nat → ℚ) (d : Deme) (w : World) :
    Except Fault (Deme × World) :=
  if ¬ (d.pop_size_ % 2 = 0) then .error .assertion
  else
    let next_gen := d.pop_
    match generation_loop total_distance d d.pop_size_ 0 next_gen w with
    | .error f => .error f
    | .ok (next_gen, w) => .ok ({ d with pop_ := next_gen }, w)

/-- The constructor `Chromosome::Chromosome(cities_ptr)` (chromosome.cc:14-20).
`random_permutation` is not among the sources; `perm` is the sequence it returns. -/
def Chromosome.construct (cities_size : Nat) (perm : List Nat) : Except Fault Chromosome :=
  let c : Chromosome := { cities_size := cities_size, order_ := perm }
  if c.is_valid then .ok c else .error .assertion

/-- The loop `while(pop_size) { ...; pop_size--; }` of the constructor of `Deme`
(deme.cc:18-24). `perms` are the results of the coming calls of `random_permutation`. At
the end of each pass the local `chromo` is destroyed, and the destructor
(chromosome.cc:24-26) asserts `is_valid()`. -/
def construct_loop (cities_size : Nat) :
    Nat → List (List Nat) → List Nat → Heap → Except Fault (List Nat × Heap × List (List Nat))
  | 0, perms, pop_, h => .ok (pop_, h, perms)
  | pop_size + 1, perms, pop_, h =>
    match perms with
    | [] => .error .no_more_draws
    | perm :: perms =>
      match Chromosome.construct cities_size perm with
      | .error f => .error f
      | .ok chromo =>
        let (p, h) := h.alloc chromo.clone
        if chromo.is_valid then construct_loop cities_size pop_size perms (pop_ ++ [p]) h
        else .error .assertion

/-- The constructor `Deme::Deme(cities_ptr, pop_size, mut_rate)` (deme.cc:13-25). -/
def Deme.construct (cities_size pop_size : Nat) (mut_rate : ℚ) (perms : List (List Nat))
    (h : Heap) : Except Fault (Deme × Heap × List (List Nat)) :=
  match construct_loop cities_size pop_size perms [] h with
  | .error f => .error f
  | .ok (pop_, h, perms) =>
    .ok ({ mut_rate_ := mut_rate, pop_size_ := pop_size, pop_ := pop_ }, h, perms)

/-- The loop of `get_best` (deme.cc:73-79) over the pointers of `pop_` still to visit;
`best` and `fittest` are the local variables of that name. -/
def get_best_loop (total_distance : List Nat → ℚ) (h : Heap) :
    List Nat → ℚ → Nat → Except Fault Nat
  | [], _, fittest => .ok fittest
  | chromo :: rest, best, fittest =>
    match h[chromo]? with
    | none => .error .out_of_bounds
    | some c =>
      let fit := c.get_fitness total_distance
      if fit > best then get_best_loop total_distance h rest fit chromo
      else get_best_loop total_distance h rest best fittest

/-- The function `Deme::get_best` (deme.cc:70-82). It is `const` and writes nothing, so the
one result is the returned pointer. `*pop_.begin()` on an empty vector is a read outside
the vector. -/
def Deme.get_best (total_distance : List Nat → ℚ) (h : Heap) (d : Deme) : Except Fault Nat :=
  let best : ℚ := 0
  match d.pop_ with
  | [] => .error .out_of_bounds
  | fittest :: _ => get_best_loop total_distance h d.pop_ best fittest

/-! ### The same loops with their bookkeeping made visible -/

/-- The loop of `crossover_loop`, line for line, returning besides `child->order_` the
values of `i` and `j` at the moment the loop is left. -/
def crossover_loop_exit (p1 p2 : Chromosome) (b e : Nat) :
    List Nat → Nat → Nat → List Nat → Except Fault (Nat × Nat × List Nat)
  | [], i, j, child => .ok (i, j, child)
  | x :: rest, i, j, child =>
    if j < p2.order_.length then
      if b ≤ i ∧ i < e then
        crossover_loop_exit p1 p2 b e rest (i + 1) j (child.set i x)
      else
        match skip_in_range p1 b e (p2.order_.drop j) j with
        | .error f => .error f
        | .ok j' =>
          match p2.order_[j']? with
          | none => .error .assertion
          | some v => crossover_loop_exit p1 p2 b e rest (i + 1) (j' + 1) (child.set i v)
    else .ok (i, j, child)

/-- The body of `generation_body`, line for line, handing out besides its result the pair
`kids` that the call of `recombine` in this pass returned. -/
def generation_body_kids (total_distance : List Nat → ℚ) (d : Deme) (i : Nat)
    (next_gen : List Nat) (w : World) : Except Fault ((Nat × Nat) × List Nat × World) :=
  match draw_parent total_distance d w with
  | .error f => .error f
  | .ok (parent1, w) =>
    match maybe_mutate d parent1 w with
    | .error f => .error f
    | .ok w =>
      match select_other total_distance d w.heap parent1 w.rdraws with
      | .error f => .error f
      | .ok (parent2, rest) =>
        match maybe_mutate d parent2 { w with rdraws := rest } with
        | .error f => .error f
        | .ok w =>
          match recombine w.heap parent1 parent2 w.idraws with
          | .error f => .error f
          | .ok (kids, heap, idraws) =>
            match store next_gen i kids.1 with
            | .error f => .error f
            | .ok next_gen =>
              match store next_gen (i + 1) kids.2 with
              | .error f => .error f
              | .ok next_gen =>
                .ok (kids, next_gen, { heap := heap, rdraws := w.rdraws, idraws := idraws })

/-- The loop of `generation_loop`, line for line, handing out besides its result the pairs
that the calls of `recombine` returned, one per pass, in the order of the passes. -/
def generation_loop_kids (total_distance : List Nat → ℚ) (d : Deme) :
    Nat → Nat → List Nat → World → Except Fault (List (Nat × Nat) × List Nat × World)
  | 0, i, next_gen, w =>
    if i < d.pop_size_ then .error .out_of_fuel else .ok ([], next_gen, w)
  | fuel + 1, i, next_gen, w =>
    if i < d.pop_size_ then
      match generation_body_kids total_distance d i next_gen w with
      | .error f => .error f
      | .ok (kids, next_gen, w) =>
        match generation_loop_kids total_distance d fuel (i + 1 + 1) next_gen w with
        | .error f => .error f
        | .ok (more, next_gen, w) => .ok (kids :: more, next_gen, w)
    else .ok ([], next_gen, w)

/-- The function `compute_next_generation` with the pairs of `generation_loop_kids`. -/
def Deme.compute_next_generation_kids (total_distance : List Nat → ℚ) (d : Deme)
    (w : World) : Except Fault (List (Nat × Nat) × Deme × World) :=
  if ¬ (d.pop_size_ % 2 = 0) then .error .assertion
  else
    let next_gen := d.pop_
    match generation_loop_kids total_distance d d.pop_size_ 0 next_gen w with
    | .error f => .error f
    | .ok (kids, next_gen, w) => .ok (kids, { d with pop_ := next_gen }, w)

/-! ### Notions used in the statements and proofs -/

/-- The draws of `[0, fitness_sum)` on which `select_parent` returns individual `i`. -/
def draws_selecting {K : Type} [LinearOrderedField K] (fit : List K) (i : Nat) : Set K :=
  {x | 0 ≤ x ∧ x < fitness_sum fit ∧ select_parent_index fit x = .ok i}

/-- The window test that `is_in_range` computes on a valid chromosome. -/
def inWin (p1 : Chromosome) (b e v : Nat) : Bool :=
  decide (b ≤ p1.order_.indexOf v ∧ p1.order_.indexOf v < e)

/-- The values of `p2->order_` from index `j` on that the fill step still has to place. -/
def pending (p1 p2 : Chromosome) (b e j : Nat) : List Nat :=
  (p2.order_.drop j).filter (fun v => !inWin p1 b e v)

/-- Shape of the tour the loop builds on two permutations of `[0, N)`. -/
def crossover_order (p1 p2 : Chromosome) (b e : Nat) : List Nat :=
  (pending p1 p2 b e 0).take b ++ (p1.order_.drop b).take (e - b)
    ++ (pending p1 p2 b e 0).drop b

/-- What holds of the state `r = (i', j', child')` in which the crossover loop, entered at
position `i` with the tour `child`, is left: the cursor `j'` has not passed the end of
`p2`, and if positions remain (`i' < N`) the cursor is at the end, every remaining
position lies in `[b, e)`, and the tour is untouched from `i'` on. -/
def exit_state_ok (p2 : Chromosome) (b e N i : Nat) (child : List Nat)
    (r : Nat × Nat × List Nat) : Prop :=
  i ≤ r.1 ∧ r.1 ≤ N ∧ r.2.1 ≤ p2.order_.length ∧ (r.1 < N → r.2.1 = p2.order_.length) ∧
    (∀ k, r.1 ≤ k → k < N → b ≤ k ∧ k < e) ∧ (∀ k, r.1 ≤ k → r.2.2[k]? = child[k]?)

/-- The population made of the given pairs of children: `child1`, `child2` of the first
pair, then `child1`, `child2` of the second pair, and so on. -/
def kids_sequence : List (Nat × Nat) → List Nat
  | [] => []
  | kids :: more => kids.1 :: kids.2 :: kids_sequence more

/-! ## Lemmas on `is_valid` and `is_in_range` -/

theorem is_valid_loop_range' (range : Nat) :
    ∀ (k i : Nat), i + k ≤ range + 1 → is_valid_loop range i (List.range' i k) = true := by
  intro k
  induction k with
  | zero => intro i _; simp [is_valid_loop]
  | succ k ih =>
    intro i h
    rw [List.range'_succ]
    have h1 : ¬ i > range := by omega
    simp only [is_valid_loop, h1, if_false, ne_eq, not_true_eq_false]
    exact ih (i + 1) (by omega)

theorem insertionSort_of_perm_range {l : List Nat} {N : Nat} (h : l.Perm (List.range N)) :
    l.insertionSort (· ≤ ·) = List.range N :=
  List.eq_of_perm_of_sorted ((List.perm_insertionSort _ l).trans h)
    (List.sorted_insertionSort _ l) (List.pairwise_le_range N)

theorem is_valid_of_perm {c : Chromosome} {N : Nat} (h : c.order_.Perm (List.range N))
    (hN : N ≤ c.cities_size + 1) : c.is_valid = true := by
  unfold Chromosome.is_valid
  simp only [insertionSort_of_perm_range h, List.range_eq_range']
  exact is_valid_loop_range' _ N 0 (by omega)

theorem is_in_range_of_valid {p1 : Chromosome} (hv : p1.is_valid = true) (v b e : Nat) :
    p1.is_in_range v b e = .ok (inWin p1 b e v) := by
  unfold Chromosome.is_in_range inWin
  simp only [hv, if_true]
  by_cases h : b ≤ List.indexOf v p1.order_ ∧ List.indexOf v p1.order_ < e
  · simp [h]
  · simp only [h, if_false]; simp [h]

theorem mem_window_iff {l : List Nat} (hl : l.Nodup) (b e v : Nat) :
    v ∈ (l.take e).drop b ↔
      b ≤ l.indexOf v ∧ l.indexOf v < e ∧ l.indexOf v < l.length := by
  constructor
  · intro h
    obtain ⟨k, hk, rfl⟩ := List.mem_iff_getElem.mp h
    have hk' : k < min e l.length - b := by simpa using hk
    have hidx : ((l.take e).drop b)[k] = l[b + k] := by
      rw [List.getElem_drop, List.getElem_take]
    rw [hidx, List.indexOf_getElem hl]
    omega
  · rintro ⟨h1, h2, h3⟩
    refine List.mem_iff_getElem.mpr ⟨l.indexOf v - b, ?_, ?_⟩
    · simp; omega
    · rw [List.getElem_drop, List.getElem_take]
      have : b + (l.indexOf v - b) = l.indexOf v := by omega
      simp only [this]
      exact List.getElem_indexOf h3

/-! ## The crossover loop -/

theorem skip_in_range_spec {p1 : Chromosome} (hv : p1.is_valid = true) (b e : Nat) :
    ∀ (s : List Nat) (j f : Nat) (F : List Nat),
      s.filter (fun v => !inWin p1 b e v) = f :: F →
      ∃ k, skip_in_range p1 b e s j = .ok (j + k) ∧ s[k]? = some f ∧
        (s.drop (k + 1)).filter (fun v => !inWin p1 b e v) = F := by
  intro s
  induction s with
  | nil => intro j f F h; simp at h
  | cons v rest ih =>
    intro j f F h
    cases hw : inWin p1 b e v with
    | true =>
      rw [List.filter_cons_of_neg (by simp [hw])] at h
      obtain ⟨k, h1, h2, h3⟩ := ih (j + 1) f F h
      refine ⟨k + 1, ?_, ?_, ?_⟩
      · simp only [skip_in_range, is_in_range_of_valid hv, hw]
        rw [h1]; congr 1; omega
      · simpa using h2
      · simpa using h3
    | false =>
      rw [List.filter_cons_of_pos (by simp [hw])] at h
      injection h with h1 h2
      refine ⟨0, ?_, ?_, ?_⟩
      · simp only [skip_in_range, is_in_range_of_valid hv, hw]; rfl
      · simp [h1]
      · simpa using h2

theorem take_succ_set {l : List Nat} {i : Nat} (h : i < l.length) (v : Nat) :
    (l.set i v).take (i + 1) = l.take i ++ [v] := by
  rw [List.set_eq_take_append_cons_drop, if_pos h, List.take_append_eq_append_take]
  have h1 : (List.take i l).length = i := by simp; omega
  simp [h1]

theorem pending_nil_of_le {p1 p2 : Chromosome} {b e j : Nat} (h : p2.order_.length ≤ j) :
    pending p1 p2 b e j = [] := by
  unfold pending
  rw [List.drop_eq_nil_of_le h]; rfl

/-- One pass of the loop body at a position outside the window. -/
theorem crossover_loop_outside {p1 p2 : Chromosome} (hv : p1.is_valid = true) {b e : Nat}
    (x : Nat) (rest : List Nat) {i j : Nat} (child : List Nat) {f : Nat} {F : List Nat}
    (hi : ¬ (b ≤ i ∧ i < e)) (hF : pending p1 p2 b e j = f :: F) :
    ∃ j', pending p1 p2 b e (j' + 1) = F ∧
      crossover_loop p1 p2 b e (x :: rest) i j child
        = crossover_loop p1 p2 b e rest (i + 1) (j' + 1) (child.set i f) := by
  have hj : j < p2.order_.length := by
    by_contra hc
    rw [pending_nil_of_le (Nat.le_of_not_lt hc)] at hF
    exact List.noConfusion hF
  obtain ⟨k, h1, h2, h3⟩ := skip_in_range_spec hv b e (p2.order_.drop j) j f F hF
  refine ⟨j + k, ?_, ?_⟩
  · unfold pending
    rw [List.drop_drop] at h3
    rw [show j + k + 1 = j + (k + 1) by omega]
    exact h3
  · rw [List.getElem?_drop] at h2
    simp only [crossover_loop, hj, if_true, hi, if_false, h1, h2]

/-- From position `e` on, the loop writes the pending values one after the other. -/
theorem crossover_loop_tail {p1 p2 : Chromosome} (hv : p1.is_valid = true) {b e : Nat} :
    ∀ (s : List Nat) (i j : Nat) (child : List Nat),
      e ≤ i → child.length = i + s.length → (pending p1 p2 b e j).length = s.length →
      crossover_loop p1 p2 b e s i j child = .ok (child.take i ++ pending p1 p2 b e j) := by
  intro s
  induction s with
  | nil =>
    intro i j child _ hlen hF
    have hF' : pending p1 p2 b e j = [] := List.length_eq_zero.mp hF
    simp only [crossover_loop, hF', List.append_nil]
    rw [List.take_of_length_le (by simp at hlen; omega)]
  | cons x rest ih =>
    intro i j child hei hlen hF
    obtain ⟨f, F, hfF⟩ : ∃ f F, pending p1 p2 b e j = f :: F := by
      cases hp : pending p1 p2 b e j with
      | nil => rw [hp] at hF; simp at hF
      | cons f F => exact ⟨f, F, rfl⟩
    obtain ⟨j', hj', hstep⟩ :=
      crossover_loop_outside hv x rest child (show ¬ (b ≤ i ∧ i < e) by omega) hfF
    have hlen' : i < child.length := by simp at hlen; omega
    rw [hstep, ih (i + 1) (j' + 1) (child.set i f) (by omega)
      (by simp at hlen ⊢; omega) (by rw [hj']; rw [hfF] at hF; simpa using hF)]
    rw [take_succ_set hlen', hj', hfF]
    simp

/-- Inside the window the loop rewrites the values the clone already holds, then goes on
with the tail. -/
theorem crossover_loop_window {p1 p2 : Chromosome} (hv : p1.is_valid = true) {b e N : Nat} :
    ∀ (s : List Nat) (i j : Nat) (child : List Nat),
      b ≤ i → i ≤ e → child.length = N → child.drop i = s →
      (pending p1 p2 b e j).length + e = N →
      crossover_loop p1 p2 b e s i j child
        = .ok (child.take i ++ s.take (e - i) ++ pending p1 p2 b e j) := by
  intro s
  induction s with
  | nil =>
    intro i j child _ hie hlen hdrop hF
    have h1 : child.length ≤ i := List.drop_eq_nil_iff.mp hdrop
    have hF' : pending p1 p2 b e j = [] := List.length_eq_zero.mp (by omega)
    simp only [crossover_loop, hF', List.append_nil, List.take_nil]
    rw [List.take_of_length_le h1]
  | cons x rest ih =>
    intro i j child hbi hie hlen hdrop hF
    have hslen : (x :: rest).length = N - i := by rw [← hdrop, List.length_drop, hlen]
    have hiN : i < child.length := by simp at hslen; omega
    have hx : child[i]? = some x := by
      have := congrArg (fun l => l[0]?) hdrop
      simpa using this
    have hrest : child.drop (i + 1) = rest := by
      have := congrArg (List.drop 1) hdrop
      simpa [List.drop_drop] using this
    by_cases hi : i = e
    · subst hi
      rw [crossover_loop_tail hv (x :: rest) i j child (le_refl _) (by rw [hslen]; omega)
        (by rw [hslen]; omega)]
      simp
    · have hlt : i < e := by omega
      by_cases hj : j < p2.order_.length
      · have hset : child.set i x = child := by
          apply List.ext_getElem? ; intro n
          by_cases hn : n = i
          · subst hn; simp [hx, hiN]
          · rw [List.getElem?_set_ne (Ne.symm hn)]
        simp only [crossover_loop, hj, if_true, hbi, hlt, and_self]
        rw [hset, ih (i + 1) j child (by omega) (by omega) hlen hrest hF]
        rw [List.take_succ, hx, show e - i = (e - (i + 1)) + 1 by omega]
        simp
      · have hF' : pending p1 p2 b e j = [] := pending_nil_of_le (Nat.le_of_not_lt hj)
        simp only [crossover_loop, hj, if_false, hF', List.append_nil]
        rw [hF'] at hF
        simp only [List.length_nil, Nat.zero_add] at hF
        have ht : (x :: rest).take (e - i) = x :: rest :=
          List.take_of_length_le (by rw [hslen]; omega)
        rw [ht, ← hdrop, List.take_append_drop]

/-- Before the window the loop writes pending values; then the window and the tail follow. -/
theorem crossover_loop_head {p1 p2 : Chromosome} (hv : p1.is_valid = true) {b e N : Nat}
    (hbe : b < e) (heN : e ≤ N) :
    ∀ (s : List Nat) (i j : Nat) (child : List Nat),
      i ≤ b → child.length = N → child.drop i = s →
      (pending p1 p2 b e j).length + (e - b) + i = N →
      crossover_loop p1 p2 b e s i j child
        = .ok (child.take i ++ (pending p1 p2 b e j).take (b - i)
            ++ (s.drop (b - i)).take (e - b) ++ (pending p1 p2 b e j).drop (b - i)) := by
  intro s
  induction s with
  | nil =>
    intro i j child hib hlen hdrop _
    have h1 : child.length ≤ i := List.drop_eq_nil_iff.mp hdrop
    omega
  | cons x rest ih =>
    intro i j child hib hlen hdrop hF
    by_cases hi : i = b
    · subst hi
      rw [crossover_loop_window hv (x :: rest) i j child (le_refl _) (by omega) hlen hdrop
        (by omega)]
      simp
    · have hlt : i < b := by omega
      obtain ⟨f, F, hfF⟩ : ∃ f F, pending p1 p2 b e j = f :: F := by
        cases hp : pending p1 p2 b e j with
        | nil => rw [hp] at hF; simp at hF; omega
        | cons f F => exact ⟨f, F, rfl⟩
      obtain ⟨j', hj', hstep⟩ :=
        crossover_loop_outside hv x rest child (show ¬ (b ≤ i ∧ i < e) by omega) hfF
      have hiN : i < child.length := by omega
      have hrest : (child.set i f).drop (i + 1) = rest := by
        rw [List.drop_set_of_lt _ _ (Nat.lt_succ_self i)]
        have := congrArg (List.drop 1) hdrop
        simpa [List.drop_drop] using this
      rw [hstep, ih (i + 1) (j' + 1) (child.set i f) (by omega) (by simpa using hlen) hrest
        (by rw [hj']; rw [hfF] at hF; simp at hF; omega)]
      rw [take_succ_set hiN, hj', hfF, show b - i = (b - (i + 1)) + 1 by omega]
      simp

/-- The whole loop, started as `create_crossover_child` starts it. -/
theorem crossover_loop_full {p1 p2 : Chromosome} (hv : p1.is_valid = true) {b e N : Nat}
    (hbe : b < e) (heN : e ≤ N) (hlen : p1.order_.length = N)
    (hF : (pending p1 p2 b e 0).length + (e - b) = N) :
    crossover_loop p1 p2 b e p1.order_ 0 0 p1.order_
      = .ok ((pending p1 p2 b e 0).take b ++ (p1.order_.drop b).take (e - b)
          ++ (pending p1 p2 b e 0).drop b) := by
  rw [crossover_loop_head hv hbe heN p1.order_ 0 0 p1.order_ (Nat.zero_le _) hlen rfl
    (by omega)]
  simp

/-! ## The window as a set of values -/

theorem inWin_eq_mem {p1 : Chromosome} (hn : p1.order_.Nodup) {b e : Nat}
    (he : e ≤ p1.order_.length) (v : Nat) :
    inWin p1 b e v = decide (v ∈ (p1.order_.take e).drop b) := by
  unfold inWin
  rw [decide_eq_decide, mem_window_iff hn]
  constructor
  · rintro ⟨h1, h2⟩; exact ⟨h1, h2, by omega⟩
  · rintro ⟨h1, h2, _⟩; exact ⟨h1, h2⟩

theorem window_split (l : List Nat) {b e : Nat} (hbe : b ≤ e) :
    l = l.take b ++ (l.take e).drop b ++ l.drop e := by
  have h1 : l.take b ++ (l.take e).drop b = l.take e := by
    have := List.take_append_drop b (l.take e)
    rwa [List.take_take, Nat.min_eq_left hbe] at this
  rw [h1, List.take_append_drop]

theorem inWin_of_mem_window {p1 : Chromosome} (hn : p1.order_.Nodup) {b e v : Nat}
    (h : v ∈ (p1.order_.take e).drop b) : inWin p1 b e v = true := by
  have := (mem_window_iff hn b e v).mp h
  simp [inWin, this.1, this.2.1]

theorem not_inWin_of_mem_take {p1 : Chromosome} (hn : p1.order_.Nodup) {b e v : Nat}
    (h : v ∈ p1.order_.take b) : inWin p1 b e v = false := by
  have h' : v ∈ (p1.order_.take b).drop 0 := by simpa using h
  have := (mem_window_iff hn 0 b v).mp h'
  simp only [inWin, decide_eq_false_iff_not]
  omega

theorem not_inWin_of_mem_drop {p1 : Chromosome} (hn : p1.order_.Nodup) {b e v : Nat}
    (h : v ∈ p1.order_.drop e) : inWin p1 b e v = false := by
  have h' : v ∈ (p1.order_.take p1.order_.length).drop e := by simpa using h
  have := (mem_window_iff hn e p1.order_.length v).mp h'
  simp only [inWin, decide_eq_false_iff_not]
  omega

theorem filter_not_inWin_self {p1 : Chromosome} (hn : p1.order_.Nodup) {b e : Nat}
    (hbe : b ≤ e) :
    p1.order_.filter (fun v => !inWin p1 b e v) = p1.order_.take b ++ p1.order_.drop e := by
  conv_lhs => rw [window_split p1.order_ hbe]
  rw [List.filter_append, List.filter_append]
  have h1 : (p1.order_.take b).filter (fun v => !inWin p1 b e v) = p1.order_.take b :=
    List.filter_eq_self.mpr (fun a ha => by simp [not_inWin_of_mem_take hn ha])
  have h2 : ((p1.order_.take e).drop b).filter (fun v => !inWin p1 b e v) = [] :=
    List.filter_eq_nil_iff.mpr (fun a ha => by simp [inWin_of_mem_window hn ha])
  have h3 : (p1.order_.drop e).filter (fun v => !inWin p1 b e v) = p1.order_.drop e :=
    List.filter_eq_self.mpr (fun a ha => by simp [not_inWin_of_mem_drop hn ha])
  rw [h1, h2, h3, List.append_nil]

theorem filter_inWin_self {p1 : Chromosome} (hn : p1.order_.Nodup) {b e : Nat}
    (hbe : b ≤ e) :
    p1.order_.filter (fun v => inWin p1 b e v) = (p1.order_.take e).drop b := by
  conv_lhs => rw [window_split p1.order_ hbe]
  rw [List.filter_append, List.filter_append]
  have h1 : (p1.order_.take b).filter (fun v => inWin p1 b e v) = [] :=
    List.filter_eq_nil_iff.mpr (fun a ha => by simp [not_inWin_of_mem_take hn ha])
  have h2 : ((p1.order_.take e).drop b).filter (fun v => inWin p1 b e v)
      = (p1.order_.take e).drop b :=
    List.filter_eq_self.mpr (fun a ha => inWin_of_mem_window hn ha)
  have h3 : (p1.order_.drop e).filter (fun v => inWin p1 b e v) = [] :=
    List.filter_eq_nil_iff.mpr (fun a ha => by simp [not_inWin_of_mem_drop hn ha])
  rw [h1, h2, h3, List.append_nil, List.nil_append]

theorem pending_length {p1 p2 : Chromosome} {N b e : Nat}
    (hp1 : p1.order_.Perm (List.range N)) (hp2 : p2.order_.Perm (List.range N))
    (hbe : b < e) (heN : e ≤ N) :
    (pending p1 p2 b e 0).length + (e - b) = N := by
  have hn : p1.order_.Nodup := hp1.nodup_iff.mpr (List.nodup_range N)
  have hlen : p1.order_.length = N := by simpa using hp1.length_eq
  have h : (pending p1 p2 b e 0).length
      = (p1.order_.filter (fun v => !inWin p1 b e v)).length := by
    unfold pending
    rw [List.drop_zero]
    exact ((hp2.trans hp1.symm).filter _).length_eq
  rw [h, filter_not_inWin_self hn (Nat.le_of_lt hbe)]
  simp
  omega

theorem crossover_order_perm {p1 p2 : Chromosome} {N b e : Nat}
    (hp1 : p1.order_.Perm (List.range N)) (hp2 : p2.order_.Perm (List.range N))
    (hbe : b < e) :
    (crossover_order p1 p2 b e).Perm (List.range N) := by
  have hn : p1.order_.Nodup := hp1.nodup_iff.mpr (List.nodup_range N)
  have hW : (p1.order_.drop b).take (e - b)
      = p1.order_.filter (fun v => inWin p1 b e v) := by
    rw [filter_inWin_self hn (Nat.le_of_lt hbe), List.drop_take]
  have hWp : ((p1.order_.drop b).take (e - b)).Perm
      (p2.order_.filter (fun v => inWin p1 b e v)) := by
    rw [hW]; exact (hp1.trans hp2.symm).filter _
  have hF : pending p1 p2 b e 0 = p2.order_.filter (fun v => !inWin p1 b e v) := by
    unfold pending; rw [List.drop_zero]
  have h1 : (crossover_order p1 p2 b e).Perm
      ((p1.order_.drop b).take (e - b) ++ pending p1 p2 b e 0) := by
    unfold crossover_order
    calc (pending p1 p2 b e 0).take b ++ (p1.order_.drop b).take (e - b)
          ++ (pending p1 p2 b e 0).drop b
        |>.Perm ((p1.order_.drop b).take (e - b) ++ (pending p1 p2 b e 0).take b
          ++ (pending p1 p2 b e 0).drop b) :=
          List.Perm.append_right _ List.perm_append_comm
      _ = (p1.order_.drop b).take (e - b) ++ pending p1 p2 b e 0 := by
          rw [List.append_assoc, List.take_append_drop]
  refine h1.trans ?_
  rw [hF]
  exact ((hWp.append_right _).trans (List.filter_append_perm _ _)).trans hp2

theorem create_crossover_child_eq {p1 p2 : Chromosome} {N b e : Nat}
    (hc : p1.cities_size = N)
    (hp1 : p1.order_.Perm (List.range N)) (hp2 : p2.order_.Perm (List.range N))
    (hbe : b < e) (heN : e ≤ N) :
    create_crossover_child p1 p2 b e
      = .ok { cities_size := p1.cities_size, order_ := crossover_order p1 p2 b e } := by
  have hv : p1.is_valid = true := is_valid_of_perm hp1 (by omega)
  have hlen : p1.order_.length = N := by simpa using hp1.length_eq
  have hloop := crossover_loop_full hv hbe heN hlen (pending_length hp1 hp2 hbe heN)
  have hvalid : Chromosome.is_valid
      { cities_size := p1.cities_size, order_ := crossover_order p1 p2 b e } = true :=
    is_valid_of_perm (N := N) (crossover_order_perm hp1 hp2 hbe) (by simp; omega)
  unfold create_crossover_child
  simp only [Chromosome.clone, hloop]
  unfold crossover_order at hvalid ⊢
  simp only [hvalid, if_true]

theorem crossover_order_take_length {p1 p2 : Chromosome} {N b e : Nat}
    (hp1 : p1.order_.Perm (List.range N)) (hp2 : p2.order_.Perm (List.range N))
    (hbe : b < e) (heN : e ≤ N) :
    ((pending p1 p2 b e 0).take b).length = b ∧
      ((p1.order_.drop b).take (e - b)).length = e - b := by
  have h := pending_length hp1 hp2 hbe heN
  have hlen : p1.order_.length = N := by simpa using hp1.length_eq
  simp only [List.length_take, List.length_drop]
  omega

theorem crossover_order_window {p1 p2 : Chromosome} {N b e : Nat}
    (hp1 : p1.order_.Perm (List.range N)) (hp2 : p2.order_.Perm (List.range N))
    (hbe : b < e) (heN : e ≤ N) (i : Nat) (hbi : b ≤ i) (hie : i < e) :
    (crossover_order p1 p2 b e)[i]? = p1.order_[i]? := by
  obtain ⟨hA, hW⟩ := crossover_order_take_length hp1 hp2 hbe heN
  unfold crossover_order
  rw [List.append_assoc, List.getElem?_append_right (by omega), hA,
    List.getElem?_append_left (by omega), List.getElem?_take_of_lt (by omega),
    List.getElem?_drop]
  congr 1; omega

theorem crossover_order_outside {p1 p2 : Chromosome} {N b e : Nat}
    (hp1 : p1.order_.Perm (List.range N)) (hp2 : p2.order_.Perm (List.range N))
    (hbe : b < e) (heN : e ≤ N) :
    (crossover_order p1 p2 b e).take b ++ (crossover_order p1 p2 b e).drop e
      = p2.order_.filter (fun v => decide (v ∉ (p1.order_.take e).drop b)) := by
  have hn : p1.order_.Nodup := hp1.nodup_iff.mpr (List.nodup_range N)
  have hlen1 : p1.order_.length = N := by simpa using hp1.length_eq
  obtain ⟨hA, hW⟩ := crossover_order_take_length hp1 hp2 hbe heN
  have hfilter : p2.order_.filter (fun v => decide (v ∉ (p1.order_.take e).drop b))
      = pending p1 p2 b e 0 := by
    unfold pending
    rw [List.drop_zero]
    apply List.filter_congr
    intro v _
    rw [inWin_eq_mem hn (by omega)]
    simp
  have htake : (crossover_order p1 p2 b e).take b = (pending p1 p2 b e 0).take b := by
    unfold crossover_order
    rw [List.append_assoc, List.take_append_of_le_length (by omega)]
    exact List.take_of_length_le (by omega)
  have hdrop : (crossover_order p1 p2 b e).drop e = (pending p1 p2 b e 0).drop b := by
    unfold crossover_order
    have hAW : ((pending p1 p2 b e 0).take b ++ (p1.order_.drop b).take (e - b)).length = e := by
      rw [List.length_append, hA, hW]; omega
    rw [List.drop_append_of_le_length (by omega), List.drop_of_length_le (by omega),
      List.nil_append]
  rw [htake, hdrop, List.take_append_drop, hfilter]

/-! ## Claims on `create_crossover_child` -/

/-- C1. Crossover children are permutations: when `p1` and `p2` hold permutations of
`[0, N)` and `0 ≤ b < e ≤ N`, `create_crossover_child(p1, p2, b, e)` returns, and the tour it
returns has length `N`, is a permutation of `[0, N)`, holds every index of `[0, N)` exactly
once, and passes `is_valid`. -/
theorem create_crossover_child_permutation (N b e : Nat) (p1 p2 : Chromosome)
    (hc : p1.cities_size = N)
    (hp1 : p1.order_.Perm (List.range N)) (hp2 : p2.order_.Perm (List.range N))
    (hbe : b < e) (heN : e ≤ N) :
    ∃ child, create_crossover_child p1 p2 b e = .ok child ∧
      child.order_.length = N ∧ child.order_.Perm (List.range N) ∧
      (∀ v, v < N → child.order_.count v = 1) ∧ child.is_valid = true := by
  have hperm := crossover_order_perm hp1 hp2 hbe
  refine ⟨_, create_crossover_child_eq hc hp1 hp2 hbe heN, ?_, hperm, ?_, ?_⟩
  · simpa using hperm.length_eq
  · intro v hv
    exact List.count_eq_one_of_mem (hperm.nodup_iff.mpr (List.nodup_range N))
      (hperm.mem_iff.mpr (List.mem_range.mpr hv))
  · exact is_valid_of_perm hperm (by simp; omega)

theorem create_crossover_child_permutation_witness :
    ∃ child, create_crossover_child ⟨5, [0, 1, 2, 3, 4]⟩ ⟨5, [4, 3, 2, 1, 0]⟩ 1 3 = .ok child ∧
      child.order_.length = 5 ∧ child.order_.Perm (List.range 5) ∧
      (∀ v, v < 5 → child.order_.count v = 1) ∧ child.is_valid = true :=
  create_crossover_child_permutation 5 1 3 ⟨5, [0, 1, 2, 3, 4]⟩ ⟨5, [4, 3, 2, 1, 0]⟩ rfl
    (by decide) (by decide) (by decide) (by decide)

/-- C2. Crossover window preservation: on permutations `p1`, `p2` of `[0, N)` and
`0 ≤ b < e ≤ N`, the returned child has `child[i] = p1[i]` at every position `i` with
`b ≤ i < e` (both sides being entries of vectors of length `N`). -/
theorem create_crossover_child_window (N b e : Nat) (p1 p2 : Chromosome)
    (hc : p1.cities_size = N)
    (hp1 : p1.order_.Perm (List.range N)) (hp2 : p2.order_.Perm (List.range N))
    (hbe : b < e) (heN : e ≤ N) :
    ∃ child, create_crossover_child p1 p2 b e = .ok child ∧
      child.order_.length = N ∧ p1.order_.length = N ∧
      ∀ i, b ≤ i → i < e → child.order_[i]? = p1.order_[i]? :=
  ⟨_, create_crossover_child_eq hc hp1 hp2 hbe heN,
    by simpa using (crossover_order_perm hp1 hp2 hbe).length_eq,
    by simpa using hp1.length_eq,
    fun i hbi hie => crossover_order_window hp1 hp2 hbe heN i hbi hie⟩

theorem create_crossover_child_window_witness :
    ∃ child, create_crossover_child ⟨5, [0, 1, 2, 3, 4]⟩ ⟨5, [4, 3, 2, 1, 0]⟩ 1 3 = .ok child ∧
      child.order_.length = 5 ∧ [0, 1, 2, 3, 4].length = 5 ∧
      ∀ i, 1 ≤ i → i < 3 → child.order_[i]? = [0, 1, 2, 3, 4][i]? :=
  create_crossover_child_window 5 1 3 ⟨5, [0, 1, 2, 3, 4]⟩ ⟨5, [4, 3, 2, 1, 0]⟩ rfl
    (by decide) (by decide) (by decide) (by decide)

/-- C3. Crossover order preservation: on permutations `p1`, `p2` of `[0, N)` and
`0 ≤ b < e ≤ N`, the values of the returned child at the positions outside `[b, e)`, read
left to right, are `p2`'s tour with every value deleted that `p1` holds at a position of
`[b, e)`, in `p2`'s order. -/
theorem create_crossover_child_order (N b e : Nat) (p1 p2 : Chromosome)
    (hc : p1.cities_size = N)
    (hp1 : p1.order_.Perm (List.range N)) (hp2 : p2.order_.Perm (List.range N))
    (hbe : b < e) (heN : e ≤ N) :
    ∃ child, create_crossover_child p1 p2 b e = .ok child ∧
      child.order_.take b ++ child.order_.drop e
        = p2.order_.filter (fun v => decide (v ∉ (p1.order_.take e).drop b)) :=
  ⟨_, create_crossover_child_eq hc hp1 hp2 hbe heN, crossover_order_outside hp1 hp2 hbe heN⟩

theorem create_crossover_child_order_witness :
    ∃ child, create_crossover_child ⟨5, [0, 1, 2, 3, 4]⟩ ⟨5, [4, 3, 2, 1, 0]⟩ 1 3 = .ok child ∧
      child.order_.take 1 ++ child.order_.drop 3
        = [4, 3, 2, 1, 0].filter (fun v => decide (v ∉ ([0, 1, 2, 3, 4].take 3).drop 1)) :=
  create_crossover_child_order 5 1 3 ⟨5, [0, 1, 2, 3, 4]⟩ ⟨5, [4, 3, 2, 1, 0]⟩ rfl
    (by decide) (by decide) (by decide) (by decide)

/-! ## `recombine` -/

theorem recombine_redraw_e_pos :
    ∀ (ds : List Nat) (e₀ e : Nat) (ds' : List Nat),
      recombine_redraw_e e₀ ds = .ok (e, ds') → e ≠ 0 := by
  intro ds
  induction ds with
  | nil =>
    intro e₀ e ds' h
    by_cases h0 : e₀ = 0
    · simp [recombine_redraw_e, h0] at h
    · simp only [recombine_redraw_e, h0, if_false, Except.ok.injEq, Prod.mk.injEq] at h
      omega
  | cons d ds ih =>
    intro e₀ e ds' h
    by_cases h0 : e₀ = 0
    · simp only [recombine_redraw_e, h0, if_true] at h
      exact ih d e ds' h
    · simp only [recombine_redraw_e, h0, if_false, Except.ok.injEq, Prod.mk.injEq] at h
      omega

theorem recombine_redraw_b_lt (e : Nat) :
    ∀ (ds : List Nat) (b₀ b : Nat) (ds' : List Nat),
      recombine_redraw_b e b₀ ds = .ok (b, ds') → b < e := by
  intro ds
  induction ds with
  | nil =>
    intro b₀ b ds' h
    by_cases h0 : b₀ ≥ e
    · simp [recombine_redraw_b, h0] at h
    · simp only [recombine_redraw_b, h0, if_false, Except.ok.injEq, Prod.mk.injEq] at h
      omega
  | cons d ds ih =>
    intro b₀ b ds' h
    by_cases h0 : b₀ ≥ e
    · simp only [recombine_redraw_b, h0, if_true] at h
      exact ih d b ds' h
    · simp only [recombine_redraw_b, h0, if_false, Except.ok.injEq, Prod.mk.injEq] at h
      omega

/-- The cut points that leave the two resampling loops satisfy `b < e`. -/
theorem recombine_cut_points_lt {draws ds : List Nat} {b e : Nat}
    (h : recombine_cut_points draws = .ok ((b, e), ds)) : b < e := by
  unfold recombine_cut_points at h
  match draws, h with
  | b₀ :: e₀ :: rest, h =>
    simp only at h
    cases he : recombine_redraw_e e₀ rest with
    | error f => rw [he] at h; simp at h
    | ok r =>
      obtain ⟨e₁, ds₁⟩ := r
      rw [he] at h
      simp only at h
      cases hb : recombine_redraw_b e₁ b₀ ds₁ with
      | error f => rw [hb] at h; simp at h
      | ok r =>
        obtain ⟨b₁, ds₂⟩ := r
        rw [hb] at h
        simp only [Except.ok.injEq, Prod.mk.injEq] at h
        obtain ⟨⟨rfl, rfl⟩, _⟩ := h
        exact recombine_redraw_b_lt _ _ _ _ _ hb

/-- On live pointers the child loop makes one pass: the fresh address differs from both. -/
theorem recombine_child_fresh {p1 p2 c : Chromosome} {b e self other : Nat} {h : Heap}
    (hs : self < h.length) (ho : other < h.length)
    (hc : create_crossover_child p1 p2 b e = .ok c) (fuel : Nat) :
    recombine_child p1 p2 b e self other (fuel + 1) h = .ok (h.length, h ++ [c]) := by
  have h1 : ¬ (h.length = other ∨ h.length = self) := by omega
  simp only [recombine_child, hc, Heap.alloc, h1, if_false]

theorem assert_valid_at_fresh {h : Heap} {c : Chromosome} (hv : c.is_valid = true) :
    assert_valid_at (h ++ [c]) h.length = .ok () := by
  unfold assert_valid_at
  rw [List.getElem?_append_right (le_refl _)]
  simp [hv]

theorem lt_length_of_getElem? {h : Heap} {p : Nat} {c : Chromosome} (hp : h[p]? = some c) :
    p < h.length := by
  by_contra hc
  rw [List.getElem?_eq_none (Nat.le_of_not_lt hc)] at hp
  exact Option.noConfusion hp

/-- What `recombine` returns on two valid parents once the cut points are chosen. -/
theorem recombine_eq {N : Nat} {h : Heap} {self other : Nat} {this that : Chromosome}
    {draws ds : List Nat} {b e : Nat}
    (hs : h[self]? = some this) (ho : h[other]? = some that)
    (hcs : this.cities_size = N) (hco : that.cities_size = N)
    (hps : this.order_.Perm (List.range N)) (hpo : that.order_.Perm (List.range N))
    (hcut : recombine_cut_points draws = .ok ((b, e), ds)) (heN : e ≤ N) :
    recombine h self other draws
      = .ok ((h.length, h.length + 1),
          h ++ [{ cities_size := that.cities_size, order_ := crossover_order that this b e },
                { cities_size := this.cities_size, order_ := crossover_order this that b e }],
          ds) := by
  have hbe := recombine_cut_points_lt hcut
  have hsl := lt_length_of_getElem? hs
  have hol := lt_length_of_getElem? ho
  have hvs : this.is_valid = true := is_valid_of_perm hps (by omega)
  have hvo : that.is_valid = true := is_valid_of_perm hpo (by omega)
  have hc1 := create_crossover_child_eq hco hpo hps hbe heN
  have hc2 := create_crossover_child_eq hcs hps hpo hbe heN
  have hv1 : Chromosome.is_valid
      { cities_size := that.cities_size, order_ := crossover_order that this b e } = true :=
    is_valid_of_perm (N := N) (crossover_order_perm hpo hps hbe) (by simp; omega)
  have hv2 : Chromosome.is_valid
      { cities_size := this.cities_size, order_ := crossover_order this that b e } = true :=
    is_valid_of_perm (N := N) (crossover_order_perm hps hpo hbe) (by simp; omega)
  have hr1 := recombine_child_fresh (h := h) hsl hol hc1 2
  have hr2 : recombine_child this that b e self other (2 + 1)
      (h ++ [{ cities_size := that.cities_size, order_ := crossover_order that this b e }])
      = _ :=
    recombine_child_fresh (by simp; omega) (by simp; omega) hc2 2
  unfold recombine
  simp only [hs, ho, hvs, hvo, not_true_eq_false, if_false, hcut, hr1, hr2,
    assert_valid_at_fresh hv1]
  have ha2 := assert_valid_at_fresh
    (h := h ++ [{ cities_size := that.cities_size, order_ := crossover_order that this b e }])
    hv2
  simp only [List.length_append, List.length_singleton, List.append_assoc,
    List.singleton_append] at ha2
  simp only [List.length_append, List.length_singleton, List.append_assoc,
    List.singleton_append, ha2]

/-- C4 (amended). Which parent supplies which child's window: on two valid parents and the
cut points `(b, e)` that `recombine` chose, `self.recombine(other)` returns two freshly
allocated children; the FIRST child carries `other`'s values at the positions `[b, e)`
and is filled elsewhere from `self`'s order, and the SECOND child carries `self`'s values
at `[b, e)` and is filled elsewhere from `other`'s order. -/
theorem recombine_children_windows (N : Nat) (h : Heap) (self other : Nat)
    (this that : Chromosome) (draws ds : List Nat) (b e : Nat)
    (hs : h[self]? = some this) (ho : h[other]? = some that)
    (hcs : this.cities_size = N) (hco : that.cities_size = N)
    (hps : this.order_.Perm (List.range N)) (hpo : that.order_.Perm (List.range N))
    (hcut : recombine_cut_points draws = .ok ((b, e), ds)) (heN : e ≤ N) :
    ∃ child1 child2 : Chromosome,
      recombine h self other draws
        = .ok ((h.length, h.length + 1), h ++ [child1, child2], ds) ∧
      (h ++ [child1, child2])[h.length]? = some child1 ∧
      (h ++ [child1, child2])[h.length + 1]? = some child2 ∧
      (∀ i, b ≤ i → i < e → child1.order_[i]? = that.order_[i]?) ∧
      child1.order_.take b ++ child1.order_.drop e
        = this.order_.filter (fun v => decide (v ∉ (that.order_.take e).drop b)) ∧
      (∀ i, b ≤ i → i < e → child2.order_[i]? = this.order_[i]?) ∧
      child2.order_.take b ++ child2.order_.drop e
        = that.order_.filter (fun v => decide (v ∉ (this.order_.take e).drop b)) := by
  have hbe := recombine_cut_points_lt hcut
  exact ⟨_, _, recombine_eq hs ho hcs hco hps hpo hcut heN,
    by rw [List.getElem?_append_right (le_refl _)]; simp,
    by rw [List.getElem?_append_right (Nat.le_succ _)]; simp,
    fun i hbi hie => crossover_order_window hpo hps hbe heN i hbi hie,
    crossover_order_outside hpo hps hbe heN,
    fun i hbi hie => crossover_order_window hps hpo hbe heN i hbi hie,
    crossover_order_outside hps hpo hbe heN⟩

theorem recombine_children_windows_witness :
    ∃ child1 child2 : Chromosome,
      recombine [⟨3, [0, 1, 2]⟩, ⟨3, [2, 1, 0]⟩] 0 1 [0, 1]
        = .ok ((2, 3), [⟨3, [0, 1, 2]⟩, ⟨3, [2, 1, 0]⟩] ++ [child1, child2], []) ∧
      ([⟨3, [0, 1, 2]⟩, ⟨3, [2, 1, 0]⟩] ++ [child1, child2])[2]? = some child1 ∧
      ([⟨3, [0, 1, 2]⟩, ⟨3, [2, 1, 0]⟩] ++ [child1, child2])[2 + 1]? = some child2 ∧
      (∀ i, 0 ≤ i → i < 1 → child1.order_[i]? = [2, 1, 0][i]?) ∧
      child1.order_.take 0 ++ child1.order_.drop 1
        = [0, 1, 2].filter (fun v => decide (v ∉ ([2, 1, 0].take 1).drop 0)) ∧
      (∀ i, 0 ≤ i → i < 1 → child2.order_[i]? = [0, 1, 2][i]?) ∧
      child2.order_.take 0 ++ child2.order_.drop 1
        = [2, 1, 0].filter (fun v => decide (v ∉ ([0, 1, 2].take 1).drop 0)) :=
  recombine_children_windows 3 [⟨3, [0, 1, 2]⟩, ⟨3, [2, 1, 0]⟩] 0 1 ⟨3, [0, 1, 2]⟩
    ⟨3, [2, 1, 0]⟩ [0, 1] [] 0 1 rfl rfl rfl rfl (by decide) (by decide) (by decide)
    (by decide)

/-- C4, as stated, fails: with `self = [0, 1, 2]` at address 0, `other = [2, 1, 0]` at
address 1 and the draws `b = 0`, `e = 1`, `recombine` returns the children `[2, 0, 1]` and
`[0, 2, 1]`. At position 0, inside `[b, e)`, the first child holds `other`'s value 2 and
not `self`'s value 0, and the second child holds `self`'s value 0 and not `other`'s 2. -/
theorem recombine_first_child_counterexample :
    recombine_cut_points [0, 1] = .ok ((0, 1), []) ∧
    ∃ (child1 child2 : Chromosome) (heap : Heap),
      recombine [⟨3, [0, 1, 2]⟩, ⟨3, [2, 1, 0]⟩] 0 1 [0, 1] = .ok ((2, 3), heap, []) ∧
      heap[2]? = some child1 ∧ heap[3]? = some child2 ∧
      child1.order_ = [2, 0, 1] ∧ child2.order_ = [0, 2, 1] ∧
      ¬ (∀ i, 0 ≤ i → i < 1 → child1.order_[i]? = [0, 1, 2][i]?) ∧
      ¬ (∀ i, 0 ≤ i → i < 1 → child2.order_[i]? = [2, 1, 0][i]?) := by
  refine ⟨by decide, ⟨3, [2, 0, 1]⟩, ⟨3, [0, 2, 1]⟩,
    [⟨3, [0, 1, 2]⟩, ⟨3, [2, 1, 0]⟩, ⟨3, [2, 0, 1]⟩, ⟨3, [0, 2, 1]⟩],
    by decide, by decide, by decide, rfl, rfl, ?_, ?_⟩
  · intro hall
    exact absurd (hall 0 (le_refl _) (by decide)) (by decide)
  · intro hall
    exact absurd (hall 0 (le_refl _) (by decide)) (by decide)

/-- C5, failing input: two parents of length 2, `self = [0, 1]` at address 0 and
`other = [1, 0]` at address 1, with the only cut points a tour of length 2 admits, `b = 0`
and `e = 1`. `recombine` returns at once: the pointer tests `child == other` and
`child == this` are false for a fresh object. The first child's tour equals `other`'s tour
and the second child's tour equals `self`'s tour. -/
theorem recombine_returns_copies_of_parents :
    ∃ (child1 child2 : Chromosome) (heap : Heap),
      recombine [⟨2, [0, 1]⟩, ⟨2, [1, 0]⟩] 0 1 [0, 1] = .ok ((2, 3), heap, []) ∧
      heap[2]? = some child1 ∧ heap[3]? = some child2 ∧
      child1.order_ = [1, 0] ∧ child2.order_ = [0, 1] :=
  ⟨⟨2, [1, 0]⟩, ⟨2, [0, 1]⟩, [⟨2, [0, 1]⟩, ⟨2, [1, 0]⟩, ⟨2, [1, 0]⟩, ⟨2, [0, 1]⟩],
    by decide, by decide, by decide, rfl, rfl⟩

/-! ## `mutate` -/

theorem cons_set_perm :
    ∀ (t : List Nat) (j a x : Nat), t[j]? = some a → (a :: t.set j x).Perm (x :: t) := by
  intro t
  induction t with
  | nil => intro j a x h; simp at h
  | cons c t ih =>
    intro j a x h
    cases j with
    | zero =>
      simp only [List.getElem?_cons_zero, Option.some.injEq] at h
      subst h
      simpa using List.Perm.swap x c t
    | succ j =>
      simp only [List.getElem?_cons_succ] at h
      simp only [List.set_cons_succ]
      exact ((List.Perm.swap c a _).trans ((ih j a x h).cons c)).trans (List.Perm.swap x c t)

/-- Exchanging two entries of a vector gives a permutation of it. -/
theorem swap_perm :
    ∀ (l : List Nat) (i j a c : Nat), l[i]? = some a → l[j]? = some c →
      ((l.set i c).set j a).Perm l := by
  intro l
  induction l with
  | nil => intro i j a c h; simp at h
  | cons x t ih =>
    intro i j a c hi hj
    cases i with
    | zero =>
      simp only [List.getElem?_cons_zero, Option.some.injEq] at hi
      subst hi
      cases j with
      | zero =>
        simp only [List.getElem?_cons_zero, Option.some.injEq] at hj
        subst hj
        simp
      | succ j =>
        simp only [List.getElem?_cons_succ] at hj
        simpa using cons_set_perm t j c x hj
    | succ i =>
      simp only [List.getElem?_cons_succ] at hi
      cases j with
      | zero =>
        simp only [List.getElem?_cons_zero, Option.some.injEq] at hj
        subst hj
        simpa using cons_set_perm t i a x hi
      | succ j =>
        simp only [List.getElem?_cons_succ] at hj
        simpa using (ih i j a c hi hj).cons x

theorem mutate_redraw_accept {pt1 pt2 : Nat} (hne : pt1 ≠ pt2) (rest : List Nat) :
    mutate_redraw pt1 pt2 rest = .ok (pt2, rest) := by
  cases rest <;> simp [mutate_redraw, hne]

theorem mutate_redraw_collisions {pt1 pt2 : Nat} (hne : pt1 ≠ pt2) (rest : List Nat) :
    ∀ k : Nat, mutate_redraw pt1 pt1 (List.replicate k pt1 ++ pt2 :: rest) = .ok (pt2, rest) := by
  intro k
  induction k with
  | zero => simpa [mutate_redraw] using mutate_redraw_accept hne rest
  | succ k ih => simpa [mutate_redraw, List.replicate_succ] using ih

/-- What `mutate` returns on a valid tour when the first draw is `pt1`, the next `k` draws
collide with it and the draw after them is `pt2 ≠ pt1`. -/
theorem mutate_eq {N : Nat} {c : Chromosome} {pt1 pt2 v1 v2 : Nat}
    (hc : c.cities_size = N) (hp : c.order_.Perm (List.range N))
    (h1 : c.order_[pt1]? = some v1) (h2 : c.order_[pt2]? = some v2) (hne : pt1 ≠ pt2)
    (k : Nat) (rest : List Nat) :
    c.mutate (pt1 :: (List.replicate k pt1 ++ pt2 :: rest))
      = .ok ({ cities_size := c.cities_size, order_ := (c.order_.set pt1 v2).set pt2 v1 },
          rest) := by
  have hv : c.is_valid = true := is_valid_of_perm hp (by omega)
  have hv' : Chromosome.is_valid
      { cities_size := c.cities_size, order_ := (c.order_.set pt1 v2).set pt2 v1 } = true :=
    is_valid_of_perm (N := N) ((swap_perm _ _ _ _ _ h1 h2).trans hp) (by simp; omega)
  have hswap : iter_swap c.order_ pt1 pt2 = .ok ((c.order_.set pt1 v2).set pt2 v1) := by
    simp [iter_swap, h1, h2]
  cases k with
  | zero =>
    simp only [Chromosome.mutate, hv, if_true, List.replicate_zero, List.nil_append,
      mutate_redraw_accept hne, hswap, hv']
  | succ k =>
    simp only [Chromosome.mutate, hv, if_true, List.replicate_succ, List.cons_append,
      mutate_redraw_collisions hne, hswap, hv']

/-- C6. Mutation preserves the permutation invariant: on a tour that is a permutation of
`[0, N)` and drawn positions `pt1 ≠ pt2` in `[0, N)` (so `N ≥ 2`), reached after any number
`k` of colliding draws, `is_valid` holds before the call, `mutate` returns, and the tour
after it is again a permutation of `[0, N)` on which `is_valid` holds. -/
theorem mutate_preserves_permutation (N : Nat) (c : Chromosome) (pt1 pt2 k : Nat)
    (rest : List Nat) (hc : c.cities_size = N) (hp : c.order_.Perm (List.range N))
    (h1 : pt1 < N) (h2 : pt2 < N) (hne : pt1 ≠ pt2) :
    2 ≤ N ∧ c.is_valid = true ∧
    ∃ c', c.mutate (pt1 :: (List.replicate k pt1 ++ pt2 :: rest)) = .ok (c', rest) ∧
      c'.order_.Perm (List.range N) ∧ c'.is_valid = true := by
  have hlen : c.order_.length = N := by simpa using hp.length_eq
  have hg1 : c.order_[pt1]? = some c.order_[pt1] := List.getElem?_eq_getElem (by omega)
  have hg2 : c.order_[pt2]? = some c.order_[pt2] := List.getElem?_eq_getElem (by omega)
  have hperm := (swap_perm _ _ _ _ _ hg1 hg2).trans hp
  exact ⟨by omega, is_valid_of_perm hp (by omega), _, mutate_eq hc hp hg1 hg2 hne k rest,
    hperm, is_valid_of_perm hperm (by simp; omega)⟩

theorem mutate_preserves_permutation_witness :
    2 ≤ 4 ∧ (⟨4, [2, 0, 3, 1]⟩ : Chromosome).is_valid = true ∧
    ∃ c', (⟨4, [2, 0, 3, 1]⟩ : Chromosome).mutate (1 :: (List.replicate 2 1 ++ 3 :: [0, 2]))
        = .ok (c', [0, 2]) ∧
      c'.order_.Perm (List.range 4) ∧ c'.is_valid = true :=
  mutate_preserves_permutation 4 ⟨4, [2, 0, 3, 1]⟩ 1 3 2 [0, 2] rfl (by decide) (by decide)
    (by decide) (by decide)

/-- C7. Mutation is a transposition: on a valid tour of length `N` and drawn positions
`pt1 ≠ pt2` in `[0, N)`, `mutate` returns a tour of the same length with
`new[pt1] = old[pt2]`, `new[pt2] = old[pt1]`, every other position unchanged, and the two
positions `pt1` and `pt2` really changed. -/
theorem mutate_is_transposition (N : Nat) (c : Chromosome) (pt1 pt2 k : Nat)
    (rest : List Nat) (hc : c.cities_size = N) (hp : c.order_.Perm (List.range N))
    (h1 : pt1 < N) (h2 : pt2 < N) (hne : pt1 ≠ pt2) :
    ∃ c', c.mutate (pt1 :: (List.replicate k pt1 ++ pt2 :: rest)) = .ok (c', rest) ∧
      c'.order_.length = c.order_.length ∧
      c'.order_[pt1]? = c.order_[pt2]? ∧ c'.order_[pt2]? = c.order_[pt1]? ∧
      (∀ i, i ≠ pt1 → i ≠ pt2 → c'.order_[i]? = c.order_[i]?) ∧
      c'.order_[pt1]? ≠ c.order_[pt1]? ∧ c'.order_[pt2]? ≠ c.order_[pt2]? := by
  have hlen : c.order_.length = N := by simpa using hp.length_eq
  have hn : c.order_.Nodup := hp.nodup_iff.mpr (List.nodup_range N)
  have hl1 : pt1 < c.order_.length := by omega
  have hl2 : pt2 < c.order_.length := by omega
  have hg1 : c.order_[pt1]? = some c.order_[pt1] := List.getElem?_eq_getElem hl1
  have hg2 : c.order_[pt2]? = some c.order_[pt2] := List.getElem?_eq_getElem hl2
  have hvne : c.order_[pt1] ≠ c.order_[pt2] := fun h => hne (hn.getElem_inj_iff.mp h)
  have e1 : ((c.order_.set pt1 c.order_[pt2]).set pt2 c.order_[pt1])[pt1]?
      = some c.order_[pt2] := by
    rw [List.getElem?_set_ne (Ne.symm hne), List.getElem?_set_self hl1]
  have e2 : ((c.order_.set pt1 c.order_[pt2]).set pt2 c.order_[pt1])[pt2]?
      = some c.order_[pt1] := by
    rw [List.getElem?_set_self (by simpa using hl2)]
  refine ⟨_, mutate_eq hc hp hg1 hg2 hne k rest, by simp, ?_, ?_, ?_, ?_, ?_⟩
  · show ((c.order_.set pt1 c.order_[pt2]).set pt2 c.order_[pt1])[pt1]? = _
    rw [e1, hg2]
  · show ((c.order_.set pt1 c.order_[pt2]).set pt2 c.order_[pt1])[pt2]? = _
    rw [e2, hg1]
  · intro i hi1 hi2
    show ((c.order_.set pt1 c.order_[pt2]).set pt2 c.order_[pt1])[i]? = _
    rw [List.getElem?_set_ne (Ne.symm hi2), List.getElem?_set_ne (Ne.symm hi1)]
  · show ((c.order_.set pt1 c.order_[pt2]).set pt2 c.order_[pt1])[pt1]? ≠ _
    rw [e1, hg1]
    exact fun h => hvne (Option.some.inj h).symm
  · show ((c.order_.set pt1 c.order_[pt2]).set pt2 c.order_[pt1])[pt2]? ≠ _
    rw [e2, hg2]
    exact fun h => hvne (Option.some.inj h)

theorem mutate_is_transposition_witness :
    ∃ c', (⟨4, [2, 0, 3, 1]⟩ : Chromosome).mutate (1 :: (List.replicate 2 1 ++ 3 :: [0, 2]))
        = .ok (c', [0, 2]) ∧
      c'.order_.length = [2, 0, 3, 1].length ∧
      c'.order_[1]? = [2, 0, 3, 1][3]? ∧ c'.order_[3]? = [2, 0, 3, 1][1]? ∧
      (∀ i, i ≠ 1 → i ≠ 3 → c'.order_[i]? = [2, 0, 3, 1][i]?) ∧
      c'.order_[1]? ≠ [2, 0, 3, 1][1]? ∧ c'.order_[3]? ≠ [2, 0, 3, 1][3]? :=
  mutate_is_transposition 4 ⟨4, [2, 0, 3, 1]⟩ 1 3 2 [0, 2] rfl (by decide) (by decide)
    (by decide) (by decide)

/-! ## `select_parent` -/

section Select

variable {K : Type} [LinearOrderedField K]

theorem fitness_sum_eq_sum (fit : List K) : fitness_sum fit = fit.sum := by
  unfold fitness_sum
  rw [List.sum_eq_foldl]

/-- Running sums over non-negative fitness values do not decrease. -/
theorem sum_take_mono {fit : List K} (hpos : ∀ f ∈ fit, 0 ≤ f) {i j : Nat} (hij : i ≤ j) :
    (fit.take i).sum ≤ (fit.take j).sum := by
  obtain ⟨d, rfl⟩ := Nat.exists_eq_add_of_le hij
  rw [List.take_add, List.sum_append]
  have : 0 ≤ (List.take d (List.drop i fit)).sum :=
    List.sum_nonneg (fun x hx => hpos x (List.mem_of_mem_drop (List.mem_of_mem_take hx)))
  linarith

theorem sum_take_le_sum {fit : List K} (hpos : ∀ f ∈ fit, 0 ≤ f) (i : Nat) :
    (fit.take i).sum ≤ fit.sum := by
  have h := sum_take_mono hpos (Nat.le_max_left i fit.length)
  rwa [List.take_of_length_le (Nat.le_max_right i fit.length)] at h

/-- The walk stops at the first position whose running sum reaches `fixed`. -/
theorem select_loop_spec (fixed : K) :
    ∀ (rest : List K) (index : Int) (ps : K), ps < fixed → fixed ≤ ps + rest.sum →
      ∃ k : Nat, k < rest.length ∧ select_loop fixed rest index ps = .ok (index + 1 + k) ∧
        ps + (rest.take k).sum < fixed ∧ fixed ≤ ps + (rest.take (k + 1)).sum := by
  intro rest
  induction rest with
  | nil =>
    intro index ps h1 h2
    simp only [List.sum_nil, add_zero] at h2
    exact absurd h1 (not_lt.mpr h2)
  | cons f rest ih =>
    intro index ps h1 h2
    by_cases h3 : ps + f < fixed
    · obtain ⟨k, hk, hres, hlo, hhi⟩ := ih (index + 1) (ps + f) h3
        (by rw [List.sum_cons] at h2; linarith)
      refine ⟨k + 1, by simpa using hk, ?_, ?_, ?_⟩
      · simp only [select_loop, h1, if_true, hres]
        congr 1; push_cast; ring
      · rw [List.take_succ_cons, List.sum_cons]; linarith
      · rw [List.take_succ_cons, List.sum_cons]; linarith
    · refine ⟨0, by simp, ?_, by simpa using h1, by simpa using not_lt.mp h3⟩
      simp only [select_loop, h1, if_true]
      cases rest <;> simp [select_loop, h3]

/-- A draw above the sum of all fitness values walks off the end of the population. -/
theorem select_loop_overrun (fixed : K) :
    ∀ (rest : List K) (index : Int) (ps : K), (∀ f ∈ rest, 0 ≤ f) → ps + rest.sum < fixed →
      select_loop fixed rest index ps = .error .out_of_bounds := by
  intro rest
  induction rest with
  | nil =>
    intro index ps _ h
    simp only [List.sum_nil, add_zero] at h
    simp [select_loop, h]
  | cons f rest ih =>
    intro index ps hpos h
    rw [List.sum_cons] at h
    have hf : 0 ≤ f := hpos f (List.mem_cons_self _ _)
    have hr : 0 ≤ rest.sum := List.sum_nonneg (fun x hx => hpos x (List.mem_cons_of_mem _ hx))
    have h1 : ps < fixed := by linarith
    simp only [select_loop, h1, if_true]
    exact ih (index + 1) (ps + f) (fun x hx => hpos x (List.mem_cons_of_mem _ hx))
      (by linarith)

/-- For a draw in `(0, sum]` the index read on return and the running sums around it. -/
theorem select_parent_index_spec {fit : List K} {x : K} (h0 : 0 < x) (h1 : x ≤ fit.sum) :
    ∃ k : Nat, k < fit.length ∧ select_parent_index fit x = .ok k ∧
      (fit.take k).sum < x ∧ x ≤ (fit.take (k + 1)).sum := by
  obtain ⟨k, hk, hres, hlo, hhi⟩ := select_loop_spec x fit (-1) 0 h0 (by simpa using h1)
  refine ⟨k, hk, ?_, by simpa using hlo, by simpa using hhi⟩
  have hidx : (-1 : Int) + 1 + (k : Int) = (k : Int) := by ring
  rw [hidx] at hres
  simp only [select_parent_index, hres]
  have hc : (0 : Int) ≤ (k : Int) ∧ (k : Int) < (fit.length : Int) := by
    constructor <;> omega
  simp [hc]

/-- Exactly the draws of `(S_{i-1}, S_i]` select index `i`, `S` being the running sums. -/
theorem select_parent_index_iff {fit : List K} (hpos : ∀ f ∈ fit, 0 ≤ f) (i : Nat) (x : K) :
    select_parent_index fit x = .ok i ↔
      i < fit.length ∧ (fit.take i).sum < x ∧ x ≤ (fit.take (i + 1)).sum := by
  constructor
  · intro h
    have h0 : 0 < x := by
      by_contra hc
      have hl : select_loop x fit (-1) 0 = .ok (-1) := by
        cases fit <;> simp [select_loop, hc]
      simp [select_parent_index, hl] at h
    have h1 : x ≤ fit.sum := by
      by_contra hc
      have hl := select_loop_overrun x fit (-1) 0 hpos (by simpa using not_le.mp hc)
      simp [select_parent_index, hl] at h
    obtain ⟨k, hk, hres, hlo, hhi⟩ := select_parent_index_spec h0 h1
    rw [hres] at h
    have hki : k = i := by simpa using h
    subst hki
    exact ⟨hk, hlo, hhi⟩
  · rintro ⟨hi, hlo, hhi⟩
    have h0 : 0 < x :=
      lt_of_le_of_lt (List.sum_nonneg (fun f hf => hpos f (List.mem_of_mem_take hf))) hlo
    have h1 : x ≤ fit.sum := le_trans hhi (sum_take_le_sum hpos _)
    obtain ⟨k, hk, hres, hlo', hhi'⟩ := select_parent_index_spec h0 h1
    have hki : k = i := by
      rcases Nat.lt_trichotomy k i with hlt | heq | hgt
      · have := sum_take_mono hpos (show k + 1 ≤ i from hlt)
        exact absurd (lt_of_lt_of_le hlo hhi') (not_lt.mpr this)
      · exact heq
      · have := sum_take_mono hpos (show i + 1 ≤ k from hgt)
        exact absurd (lt_of_lt_of_le hlo' hhi) (not_lt.mpr this)
    rw [hres, hki]

end Select

/-- C8, failing inputs: a population of two individuals of fitness 1 each (total distance
50), so `fitness_sum = 2`. On the draw `0` the loop body never runs, `index` stays `-1` and
`pop_[-1]` is read, outside the vector; the claim asks for individual 0, whose running sum
`1` exceeds `0`. On the draw `1` the code returns the individual at index 0, whose running
sum `1` does not exceed the draw; the first running sum that does is the one at index 1. -/
theorem select_parent_boundary_draws :
    fitnesses (fun _ => 50) [⟨2, [0, 1]⟩, ⟨2, [1, 0]⟩] [0, 1] = .ok [1, 1] ∧
    fitness_sum ([1, 1] : List ℚ) = 2 ∧
    Deme.select_parent (fun _ => 50) [⟨2, [0, 1]⟩, ⟨2, [1, 0]⟩] ⟨1 / 10, 2, [0, 1]⟩ 0
      = .error .out_of_bounds ∧
    Deme.select_parent (fun _ => 50) [⟨2, [0, 1]⟩, ⟨2, [1, 0]⟩] ⟨1 / 10, 2, [0, 1]⟩ 1
      = .ok 0 ∧
    ¬ ((1 : ℚ) < (([1, 1] : List ℚ).take 1).sum) ∧ (1 : ℚ) < (([1, 1] : List ℚ).take 2).sum := by
  refine ⟨?_, ?_, ?_, ?_, ?_, ?_⟩
  · norm_num [fitnesses, Chromosome.get_fitness]
  · norm_num [fitness_sum]
  · norm_num [Deme.select_parent, fitnesses, Chromosome.get_fitness, select_parent_index,
      select_loop]
  · norm_num [Deme.select_parent, fitnesses, Chromosome.get_fitness, select_parent_index,
      select_loop]
  · norm_num
  · norm_num

/-- C9. Selection is fitness-proportionate: for a non-empty population with strictly
positive fitness values `fit` (exact real arithmetic) and every index `i`, the set of draws
`x` of `[0, fitness_sum)` on which `select_parent` reads `pop_[i]` is an interval with the
end points `S_{i-1}` and `S_i` (the running sums before and at `i`): it contains the open
interval and lies in the half-open one. Its end points lie in `[0, fitness_sum]`, its
length is exactly `fit[i]`, its Lebesgue measure is `fit[i]`, and its share of the draw
range `[0, fitness_sum)` is `fit[i] / fitness_sum`. -/
theorem select_parent_proportionate (fit : List ℝ) (hpos : ∀ f ∈ fit, 0 < f) (i : Nat)
    (hlt : i < fit.length) :
    0 ≤ (fit.take i).sum ∧ (fit.take (i + 1)).sum ≤ fitness_sum fit ∧
    (fit.take (i + 1)).sum - (fit.take i).sum = fit[i] ∧
    Set.Ioo (fit.take i).sum (fit.take (i + 1)).sum ⊆ draws_selecting fit i ∧
    draws_selecting fit i ⊆ Set.Ioc (fit.take i).sum (fit.take (i + 1)).sum ∧
    MeasureTheory.volume (draws_selecting fit i) = ENNReal.ofReal fit[i] ∧
    MeasureTheory.volume (draws_selecting fit i)
        / MeasureTheory.volume (Set.Ico 0 (fitness_sum fit))
      = ENNReal.ofReal (fit[i] / fitness_sum fit) := by
  have hnn : ∀ f ∈ fit, 0 ≤ f := fun f hf => le_of_lt (hpos f hf)
  have hlo : 0 ≤ (fit.take i).sum :=
    List.sum_nonneg (fun f hf => hnn f (List.mem_of_mem_take hf))
  have hhi : (fit.take (i + 1)).sum ≤ fitness_sum fit := by
    rw [fitness_sum_eq_sum]; exact sum_take_le_sum hnn _
  have hlen : (fit.take (i + 1)).sum - (fit.take i).sum = fit[i] := by
    rw [List.sum_take_succ fit i hlt]; ring
  have hfi : 0 < fit[i] := hpos _ (List.getElem_mem hlt)
  have hsub1 : Set.Ioo (fit.take i).sum (fit.take (i + 1)).sum ⊆ draws_selecting fit i := by
    intro x hx
    exact ⟨le_trans hlo (le_of_lt hx.1), lt_of_lt_of_le hx.2 hhi,
      (select_parent_index_iff hnn i x).mpr ⟨hlt, hx.1, le_of_lt hx.2⟩⟩
  have hsub2 : draws_selecting fit i ⊆ Set.Ioc (fit.take i).sum (fit.take (i + 1)).sum := by
    intro x hx
    have := (select_parent_index_iff hnn i x).mp hx.2.2
    exact ⟨this.2.1, this.2.2⟩
  have hvol : MeasureTheory.volume (draws_selecting fit i) = ENNReal.ofReal fit[i] := by
    apply le_antisymm
    · calc MeasureTheory.volume (draws_selecting fit i)
          ≤ MeasureTheory.volume (Set.Ioc (fit.take i).sum (fit.take (i + 1)).sum) :=
            MeasureTheory.measure_mono hsub2
        _ = ENNReal.ofReal fit[i] := by rw [Real.volume_Ioc, hlen]
    · calc ENNReal.ofReal fit[i]
          = MeasureTheory.volume (Set.Ioo (fit.take i).sum (fit.take (i + 1)).sum) := by
            rw [Real.volume_Ioo, hlen]
        _ ≤ MeasureTheory.volume (draws_selecting fit i) := MeasureTheory.measure_mono hsub1
  have hsum : 0 < fitness_sum fit := by linarith
  refine ⟨hlo, hhi, hlen, hsub1, hsub2, hvol, ?_⟩
  rw [hvol, Real.volume_Ico, sub_zero, ENNReal.ofReal_div_of_pos hsum]

theorem select_parent_proportionate_witness :
    0 ≤ (([1, 2] : List ℝ).take 0).sum ∧
    (([1, 2] : List ℝ).take (0 + 1)).sum ≤ fitness_sum ([1, 2] : List ℝ) ∧
    (([1, 2] : List ℝ).take (0 + 1)).sum - (([1, 2] : List ℝ).take 0).sum
      = ([1, 2] : List ℝ)[0] ∧
    Set.Ioo (([1, 2] : List ℝ).take 0).sum (([1, 2] : List ℝ).take (0 + 1)).sum
      ⊆ draws_selecting ([1, 2] : List ℝ) 0 ∧
    draws_selecting ([1, 2] : List ℝ) 0
      ⊆ Set.Ioc (([1, 2] : List ℝ).take 0).sum (([1, 2] : List ℝ).take (0 + 1)).sum ∧
    MeasureTheory.volume (draws_selecting ([1, 2] : List ℝ) 0)
      = ENNReal.ofReal ([1, 2] : List ℝ)[0] ∧
    MeasureTheory.volume (draws_selecting ([1, 2] : List ℝ) 0)
        / MeasureTheory.volume (Set.Ico 0 (fitness_sum ([1, 2] : List ℝ)))
      = ENNReal.ofReal (([1, 2] : List ℝ)[0] / fitness_sum ([1, 2] : List ℝ)) :=
  select_parent_proportionate [1, 2]
    (by intro f hf; simp at hf; rcases hf with rfl | rfl <;> norm_num) 0 (by simp)

/-! ## The population -/

theorem store_length {next_gen next_gen' : List Nat} {i kid : Nat}
    (h : store next_gen i kid = .ok next_gen') : next_gen'.length = next_gen.length := by
  unfold store at h
  split at h
  · simp only [Except.ok.injEq] at h
    rw [← h, List.length_set]
  · exact Except.noConfusion h

/-- One pass of the generation loop overwrites two slots and keeps the size. -/
theorem generation_body_length {total_distance : List Nat → ℚ} {d : Deme} {i : Nat}
    {next_gen next_gen' : List Nat} {w w' : World}
    (h : generation_body total_distance d i next_gen w = .ok (next_gen', w')) :
    next_gen'.length = next_gen.length := by
  unfold generation_body at h
  repeat' split at h
  all_goals first
    | exact Except.noConfusion h
    | (rename_i h1 _ _ h2
       simp only [Except.ok.injEq, Prod.mk.injEq] at h
       rw [← h.1, store_length h2, store_length h1])

theorem generation_loop_length {total_distance : List Nat → ℚ} {d : Deme} :
    ∀ (fuel i : Nat) (next_gen next_gen' : List Nat) (w w' : World),
      generation_loop total_distance d fuel i next_gen w = .ok (next_gen', w') →
      next_gen'.length = next_gen.length := by
  intro fuel
  induction fuel with
  | zero =>
    intro i next_gen next_gen' w w' h
    unfold generation_loop at h
    split at h
    · exact Except.noConfusion h
    · simp only [Except.ok.injEq, Prod.mk.injEq] at h
      rw [h.1]
  | succ fuel ih =>
    intro i next_gen next_gen' w w' h
    unfold generation_loop at h
    split at h
    · split at h
      · exact Except.noConfusion h
      · rename_i hb
        rw [ih _ _ _ _ _ h, generation_body_length hb]
    · simp only [Except.ok.injEq, Prod.mk.injEq] at h
      rw [h.1]

theorem compute_next_generation_length {total_distance : List Nat → ℚ} {d d' : Deme}
    {w w' : World} (h : d.compute_next_generation total_distance w = .ok (d', w')) :
    d'.pop_.length = d.pop_.length ∧ d'.pop_size_ = d.pop_size_ ∧ d.pop_size_ % 2 = 0 := by
  unfold Deme.compute_next_generation at h
  split at h
  · exact Except.noConfusion h
  · rename_i heven
    dsimp only at h
    split at h
    · exact Except.noConfusion h
    · rename_i hl
      simp only [Except.ok.injEq, Prod.mk.injEq] at h
      rw [← h.1]
      exact ⟨generation_loop_length _ _ _ _ _ _ hl, rfl, not_not.mp heven⟩

theorem construct_loop_spec (cities_size : Nat) :
    ∀ (n : Nat) (perms : List (List Nat)) (pop_ : List Nat) (h : Heap),
      n ≤ perms.length → (∀ perm ∈ perms.take n, perm.Perm (List.range cities_size)) →
      ∃ pop' h', construct_loop cities_size n perms pop_ h = .ok (pop', h', perms.drop n) ∧
        pop'.length = pop_.length + n := by
  intro n
  induction n with
  | zero => intro perms pop_ h _ _; exact ⟨pop_, h, by simp [construct_loop], by simp⟩
  | succ n ih =>
    intro perms pop_ h hlen hvalid
    cases perms with
    | nil => simp at hlen
    | cons perm perms =>
      have hv : Chromosome.is_valid { cities_size := cities_size, order_ := perm } = true :=
        is_valid_of_perm (N := cities_size) (hvalid perm (by simp)) (by simp)
      obtain ⟨pop', h', hres, hl⟩ := ih perms (pop_ ++ [h.length])
        (h ++ [Chromosome.clone { cities_size := cities_size, order_ := perm }])
        (by simpa using hlen)
        (fun q hq => hvalid q (by simp only [List.take_succ_cons]; exact List.mem_cons_of_mem _ hq))
      refine ⟨pop', h', ?_, by simp at hl; omega⟩
      simp only [construct_loop, Chromosome.construct, hv, if_true, Heap.alloc, hres,
        List.drop_succ_cons]

/-- C10. Population size invariant: construction with `pop_size` (the permutations that
`random_permutation` hands in being valid) returns a deme whose population holds exactly
`pop_size` individuals; and for even `pop_size`, every call of `compute_next_generation`
that completes on a deme of that size leaves it with exactly `pop_size` individuals. -/
theorem population_size_invariant (cities_size pop_size : Nat) (mut_rate : ℚ)
    (perms : List (List Nat)) (h : Heap) (hperms : pop_size ≤ perms.length)
    (hvalid : ∀ perm ∈ perms.take pop_size, perm.Perm (List.range cities_size)) :
    ∃ d h', Deme.construct cities_size pop_size mut_rate perms h
        = .ok (d, h', perms.drop pop_size) ∧
      d.pop_size_ = pop_size ∧ d.pop_.length = pop_size ∧
      ∀ (total_distance : List Nat → ℚ) (d₀ d₁ : Deme) (w w₁ : World),
        pop_size % 2 = 0 → d₀.pop_size_ = pop_size → d₀.pop_.length = pop_size →
        d₀.compute_next_generation total_distance w = .ok (d₁, w₁) →
        d₁.pop_size_ = pop_size ∧ d₁.pop_.length = pop_size := by
  obtain ⟨pop', h', hres, hl⟩ := construct_loop_spec cities_size pop_size perms [] h hperms hvalid
  refine ⟨⟨mut_rate, pop_size, pop'⟩, h', ?_, rfl, by simpa using hl, ?_⟩
  · simp only [Deme.construct, hres]
  · intro total_distance d₀ d₁ w w₁ _ hsize hlen hrun
    obtain ⟨h1, h2, _⟩ := compute_next_generation_length hrun
    exact ⟨by rw [h2, hsize], by rw [h1, hlen]⟩

theorem population_size_invariant_witness :
    (∃ d h', Deme.construct 3 2 (1 / 10) [[0, 1, 2], [2, 1, 0]] []
        = .ok (d, h', ([[0, 1, 2], [2, 1, 0]] : List (List Nat)).drop 2) ∧
      d.pop_size_ = 2 ∧ d.pop_.length = 2 ∧
      ∀ (total_distance : List Nat → ℚ) (d₀ d₁ : Deme) (w w₁ : World),
        2 % 2 = 0 → d₀.pop_size_ = 2 → d₀.pop_.length = 2 →
        d₀.compute_next_generation total_distance w = .ok (d₁, w₁) →
        d₁.pop_size_ = 2 ∧ d₁.pop_.length = 2) ∧
    Deme.construct 3 2 (1 / 10) [[0, 1, 2], [2, 1, 0]] []
      = .ok (⟨1 / 10, 2, [0, 1]⟩, [⟨3, [0, 1, 2]⟩, ⟨3, [2, 1, 0]⟩], []) ∧
    Deme.compute_next_generation (fun _ => 50) ⟨1 / 10, 2, [0, 1]⟩
      ⟨[⟨3, [0, 1, 2]⟩, ⟨3, [2, 1, 0]⟩], [1 / 2, 0, 3 / 2, 1 / 2], [0, 1, 0, 1]⟩
    = .ok (⟨1 / 10, 2, [2, 3]⟩,
        ⟨[⟨3, [1, 0, 2]⟩, ⟨3, [2, 1, 0]⟩, ⟨3, [2, 1, 0]⟩, ⟨3, [1, 2, 0]⟩], [], []⟩) :=
  ⟨population_size_invariant 3 2 (1 / 10) [[0, 1, 2], [2, 1, 0]] [] (by decide) (by decide),
    by decide!, by decide!⟩

/-! ## The loop bounds of the model are never reached -/

theorem skip_in_range_fuel (p1 : Chromosome) (b e : Nat) :
    ∀ (s : List Nat) (j : Nat), skip_in_range p1 b e s j ≠ .error .out_of_fuel := by
  intro s
  induction s with
  | nil => intro j h; simp [skip_in_range] at h
  | cons v rest ih =>
    intro j h
    unfold skip_in_range at h
    split at h
    · rename_i f hf
      simp only [Except.error.injEq] at h
      subst h
      unfold Chromosome.is_in_range at hf
      dsimp only at hf
      repeat' split at hf
      all_goals simp at hf
    · exact ih _ h
    · simp at h

theorem crossover_loop_fuel (p1 p2 : Chromosome) (b e : Nat) :
    ∀ (s : List Nat) (i j : Nat) (child : List Nat),
      crossover_loop p1 p2 b e s i j child ≠ .error .out_of_fuel := by
  intro s
  induction s with
  | nil => intro i j child h; simp [crossover_loop] at h
  | cons x rest ih =>
    intro i j child h
    unfold crossover_loop at h
    repeat' split at h
    · exact ih _ _ _ h
    · rename_i f hf
      simp only [Except.error.injEq] at h
      subst h
      exact skip_in_range_fuel _ _ _ _ _ hf
    · simp at h
    · exact ih _ _ _ h
    · simp at h

theorem create_crossover_child_fuel (p1 p2 : Chromosome) (b e : Nat) :
    create_crossover_child p1 p2 b e ≠ .error .out_of_fuel := by
  intro h
  unfold create_crossover_child at h
  dsimp only at h
  repeat' split at h
  · rename_i f hf
    simp only [Except.error.injEq] at h
    subst h
    exact crossover_loop_fuel _ _ _ _ _ _ _ _ hf
  · simp at h
  · simp at h

/-- Three passes always suffice for a child loop of `recombine`. -/
theorem recombine_child_fuel (p1 p2 : Chromosome) (b e self other : Nat) (h : Heap) :
    recombine_child p1 p2 b e self other 3 h ≠ .error .out_of_fuel := by
  intro hc
  cases hcr : create_crossover_child p1 p2 b e with
  | error f =>
    simp only [recombine_child, hcr, Except.error.injEq] at hc
    subst hc
    exact create_crossover_child_fuel _ _ _ _ hcr
  | ok c =>
    simp only [recombine_child, hcr, Heap.alloc, List.length_append, List.length_singleton]
      at hc
    repeat' split at hc
    all_goals first
      | omega
      | simp at hc

theorem mutate_redraw_fuel (pt1 : Nat) :
    ∀ (ds : List Nat) (pt2 : Nat), mutate_redraw pt1 pt2 ds ≠ .error .out_of_fuel := by
  intro ds
  induction ds with
  | nil => intro pt2 h; unfold mutate_redraw at h; split at h <;> simp at h
  | cons d ds ih =>
    intro pt2 h
    unfold mutate_redraw at h
    split at h
    · exact ih _ h
    · simp at h

theorem mutate_fuel (c : Chromosome) (draws : List Nat) :
    c.mutate draws ≠ .error .out_of_fuel := by
  intro h
  unfold Chromosome.mutate at h
  repeat' split at h
  all_goals first
    | (simp at h; done)
    | (dsimp only at h; split at h <;> simp at h)
    | (rename_i f hf
       simp only [Except.error.injEq] at h
       subst h
       first
         | exact mutate_redraw_fuel _ _ _ hf
         | (unfold iter_swap at hf; split at hf <;> simp at hf))

theorem recombine_redraw_e_fuel :
    ∀ (ds : List Nat) (e : Nat), recombine_redraw_e e ds ≠ .error .out_of_fuel := by
  intro ds
  induction ds with
  | nil => intro e h; unfold recombine_redraw_e at h; split at h <;> simp at h
  | cons d ds ih =>
    intro e h
    unfold recombine_redraw_e at h
    split at h
    · exact ih _ h
    · simp at h

theorem recombine_redraw_b_fuel (e : Nat) :
    ∀ (ds : List Nat) (b : Nat), recombine_redraw_b e b ds ≠ .error .out_of_fuel := by
  intro ds
  induction ds with
  | nil => intro b h; unfold recombine_redraw_b at h; split at h <;> simp at h
  | cons d ds ih =>
    intro b h
    unfold recombine_redraw_b at h
    split at h
    · exact ih _ h
    · simp at h

theorem recombine_cut_points_fuel (draws : List Nat) :
    recombine_cut_points draws ≠ .error .out_of_fuel := by
  intro h
  unfold recombine_cut_points at h
  repeat' split at h
  all_goals first
    | (simp at h; done)
    | (rename_i f hf
       simp only [Except.error.injEq] at h
       subst h
       first
         | exact recombine_redraw_e_fuel _ _ hf
         | exact recombine_redraw_b_fuel _ _ _ hf)

theorem assert_valid_at_fuel (h : Heap) (child : Nat) :
    assert_valid_at h child ≠ .error .out_of_fuel := by
  intro hc
  unfold assert_valid_at at hc
  repeat' split at hc
  all_goals simp at hc

theorem recombine_fuel (h : Heap) (self other : Nat) (draws : List Nat) :
    recombine h self other draws ≠ .error .out_of_fuel := by
  intro hc
  unfold recombine at hc
  repeat' split at hc
  all_goals first
    | (simp at hc; done)
    | (rename_i f hf
       simp only [Except.error.injEq] at hc
       subst hc
       first
         | exact recombine_cut_points_fuel _ hf
         | exact recombine_child_fuel _ _ _ _ _ _ _ hf
         | exact assert_valid_at_fuel _ _ hf)

theorem fitnesses_fuel (total_distance : List Nat → ℚ) (h : Heap) :
    ∀ ps : List Nat, fitnesses total_distance h ps ≠ .error .out_of_fuel := by
  intro ps
  induction ps with
  | nil => intro hc; simp [fitnesses] at hc
  | cons p ps ih =>
    intro hc
    unfold fitnesses at hc
    repeat' split at hc
    · simp at hc
    · rename_i f hf
      simp only [Except.error.injEq] at hc
      subst hc
      exact ih hf
    · simp at hc

theorem select_loop_fuel {K : Type} [LinearOrderedField K] (fixed : K) :
    ∀ (rest : List K) (index : Int) (ps : K),
      select_loop fixed rest index ps ≠ .error .out_of_fuel := by
  intro rest
  induction rest with
  | nil => intro index ps h; unfold select_loop at h; split at h <;> simp at h
  | cons f rest ih =>
    intro index ps h
    unfold select_loop at h
    split at h
    · exact ih _ _ h
    · simp at h

theorem select_parent_fuel (total_distance : List Nat → ℚ) (h : Heap) (d : Deme) (fixed : ℚ) :
    d.select_parent total_distance h fixed ≠ .error .out_of_fuel := by
  intro hc
  unfold Deme.select_parent at hc
  repeat' split at hc
  · rename_i f hf
    simp only [Except.error.injEq] at hc
    subst hc
    exact fitnesses_fuel _ _ _ hf
  · rename_i f hf
    simp only [Except.error.injEq] at hc
    subst hc
    unfold select_parent_index at hf
    repeat' split at hf
    · rename_i g hg
      simp only [Except.error.injEq] at hf
      subst hf
      exact select_loop_fuel _ _ _ _ hg
    · simp at hf
    · simp at hf
  · simp at hc
  · simp at hc

theorem select_other_fuel (total_distance : List Nat → ℚ) (d : Deme) (h : Heap)
    (parent1 : Nat) :
    ∀ rdraws : List ℚ,
      select_other total_distance d h parent1 rdraws ≠ .error .out_of_fuel := by
  intro rdraws
  induction rdraws with
  | nil => intro hc; simp [select_other] at hc
  | cons fixed rest ih =>
    intro hc
    unfold select_other at hc
    repeat' split at hc
    · rename_i f hf
      simp only [Except.error.injEq] at hc
      subst hc
      exact select_parent_fuel _ _ _ _ hf
    · exact ih hc
    · simp at hc

theorem maybe_mutate_fuel (d : Deme) (parent : Nat) (w : World) :
    maybe_mutate d parent w ≠ .error .out_of_fuel := by
  intro hc
  unfold maybe_mutate at hc
  repeat' split at hc
  all_goals first
    | (simp at hc; done)
    | (rename_i f hf
       simp only [Except.error.injEq] at hc
       subst hc
       exact mutate_fuel _ _ hf)

theorem generation_body_fuel (total_distance : List Nat → ℚ) (d : Deme) (i : Nat)
    (next_gen : List Nat) (w : World) :
    generation_body total_distance d i next_gen w ≠ .error .out_of_fuel := by
  intro hc
  unfold generation_body at hc
  repeat' split at hc
  all_goals first
    | (simp at hc; done)
    | (rename_i f hf
       simp only [Except.error.injEq] at hc
       subst hc
       first
         | exact maybe_mutate_fuel _ _ _ hf
         | exact select_other_fuel _ _ _ _ _ hf
         | exact recombine_fuel _ _ _ _ hf
         | (unfold store at hf; split at hf <;> simp at hf)
         | (unfold draw_parent at hf
            repeat' split at hf
            all_goals first
              | (simp at hf; done)
              | (rename_i g hg
                 simp only [Except.error.injEq] at hf
                 subst hf
                 exact select_parent_fuel _ _ _ _ hg)))

theorem generation_loop_fuel (total_distance : List Nat → ℚ) (d : Deme) :
    ∀ (fuel i : Nat) (next_gen : List Nat) (w : World), d.pop_size_ ≤ i + 2 * fuel →
      generation_loop total_distance d fuel i next_gen w ≠ .error .out_of_fuel := by
  intro fuel
  induction fuel with
  | zero =>
    intro i next_gen w hle hc
    unfold generation_loop at hc
    split at hc
    · omega
    · simp at hc
  | succ fuel ih =>
    intro i next_gen w hle hc
    unfold generation_loop at hc
    repeat' split at hc
    · rename_i f hf
      simp only [Except.error.injEq] at hc
      subst hc
      exact generation_body_fuel _ _ _ _ _ hf
    · exact ih _ _ _ (by omega) hc
    · simp at hc

/-- The bound `pop_size_` on the passes of the generation loop is never reached: a call of
`compute_next_generation` returns, fails an assertion, leaves a vector, or runs out of
supplied draws. -/
theorem compute_next_generation_fuel (total_distance : List Nat → ℚ) (d : Deme) (w : World) :
    d.compute_next_generation total_distance w ≠ .error .out_of_fuel := by
  intro hc
  unfold Deme.compute_next_generation at hc
  split at hc
  · simp at hc
  · dsimp only at hc
    split at hc
    · rename_i f hf
      simp only [Except.error.injEq] at hc
      subst hc
      exact generation_loop_fuel _ _ _ _ _ _ (by omega) hf
    · simp at hc

/-! ## What `is_valid` accepts -/

theorem is_valid_loop_iff (range : Nat) :
    ∀ (l : List Nat) (i : Nat),
      is_valid_loop range i l = true ↔
        l = List.range' i l.length ∧ (l = [] ∨ i + l.length ≤ range + 1) := by
  intro l
  induction l with
  | nil => intro i; simp [is_valid_loop]
  | cons v rest ih =>
    intro i
    unfold is_valid_loop
    by_cases h1 : i > range
    · rw [if_pos h1]
      simp only [Bool.false_eq_true, false_iff, not_and, not_or]
      intro _
      exact ⟨List.cons_ne_nil _ _, by simp; omega⟩
    · rw [if_neg h1]
      by_cases h2 : i ≠ v
      · rw [if_pos h2]
        simp only [Bool.false_eq_true, false_iff, not_and]
        intro h
        rw [List.length_cons, List.range'_succ] at h
        exact absurd (List.head_eq_of_cons_eq h).symm h2
      · rw [if_neg h2]
        have h2' : i = v := not_not.mp h2
        subst h2'
        rw [ih, List.length_cons, List.range'_succ]
        simp only [List.cons.injEq, true_and]
        constructor
        · rintro ⟨hl, hr⟩
          refine ⟨hl, Or.inr ?_⟩
          rcases hr with hr | hr
          · rw [hr]; simp; omega
          · omega
        · rintro ⟨hl, hr⟩
          refine ⟨hl, ?_⟩
          rcases hr with hr | hr
          · simp at hr
          · exact Or.inr (by omega)

/-- What `is_valid` decides: the sorted copy is `0, 1, ..., size() - 1` and the tour has at
most `cities_ptr_->size() + 1` entries. -/
theorem is_valid_iff (c : Chromosome) :
    c.is_valid = true ↔
      c.order_.insertionSort (· ≤ ·) = List.range c.order_.length ∧
        c.order_.length ≤ c.cities_size + 1 := by
  unfold Chromosome.is_valid
  simp only [is_valid_loop_iff, List.length_insertionSort, Nat.zero_add,
    ← List.range_eq_range']
  constructor
  · rintro ⟨h1, h2⟩
    refine ⟨h1, ?_⟩
    rcases h2 with h2 | h2
    · have : c.order_.length = 0 := by
        rw [← List.length_insertionSort (· ≤ ·) c.order_, h2]; rfl
      omega
    · exact h2
  · rintro ⟨h1, h2⟩
    exact ⟨h1, Or.inr h2⟩

theorem perm_of_is_valid {c : Chromosome} (hv : c.is_valid = true) :
    c.order_.Perm (List.range c.order_.length) := by
  have h := ((is_valid_iff c).mp hv).1
  exact (List.perm_insertionSort (· ≤ ·) c.order_).symm.trans (h ▸ List.Perm.refl _)

/-- C13, failing inputs: with a catalog of `N = 2` cities, `is_valid` returns true on the
tour `[0, 1, 2]`, which has length 3 and holds the index `2 ≥ N`, so that its sorted copy
is not `[0, 1]`; the loop test `i > range` lets the index `N` pass. It also returns true on
the tour `[0]` and on the empty tour, which miss cities: nothing compares the length of the
tour with `N`. -/
theorem is_valid_accepts_non_permutations :
    (⟨2, [0, 1, 2]⟩ : Chromosome).is_valid = true ∧
    ([0, 1, 2] : List Nat).insertionSort (· ≤ ·) ≠ List.range 2 ∧
    ([0, 1, 2] : List Nat).length ≠ 2 ∧ (2 : Nat) ∈ ([0, 1, 2] : List Nat) ∧
    (⟨2, [0]⟩ : Chromosome).is_valid = true ∧
    ([0] : List Nat).insertionSort (· ≤ ·) ≠ List.range 2 ∧
    (⟨2, []⟩ : Chromosome).is_valid = true ∧
    ([] : List Nat).insertionSort (· ≤ ·) ≠ List.range 2 := by
  refine ⟨by decide, by decide, by decide, by decide, by decide, by decide, by decide,
    by decide⟩

/-! ## Fitness -/

/-- C14. Fitness monotonicity: with `get_fitness = 50 / total_distance` over the rationals,
for two tours `A` and `B` of strictly positive total distance, a shorter total distance of
`A` gives a strictly greater fitness of `A`, and both fitness values are strictly
positive. -/
theorem get_fitness_monotone (total_distance : List Nat → ℚ) (A B : Chromosome)
    (hA : 0 < total_distance A.order_) (hB : 0 < total_distance B.order_)
    (hlt : total_distance A.order_ < total_distance B.order_) :
    A.get_fitness total_distance > B.get_fitness total_distance ∧
    0 < A.get_fitness total_distance ∧ 0 < B.get_fitness total_distance := by
  unfold Chromosome.get_fitness
  refine ⟨?_, div_pos (by norm_num) hA, div_pos (by norm_num) hB⟩
  exact div_lt_div_of_pos_left (by norm_num) hA hlt

theorem get_fitness_monotone_witness :
    (⟨2, [0, 1]⟩ : Chromosome).get_fitness (fun l => (l.headD 0 : ℚ) + 1)
      > (⟨2, [1, 0]⟩ : Chromosome).get_fitness (fun l => (l.headD 0 : ℚ) + 1) ∧
    0 < (⟨2, [0, 1]⟩ : Chromosome).get_fitness (fun l => (l.headD 0 : ℚ) + 1) ∧
    0 < (⟨2, [1, 0]⟩ : Chromosome).get_fitness (fun l => (l.headD 0 : ℚ) + 1) :=
  get_fitness_monotone (fun l => (l.headD 0 : ℚ) + 1) ⟨2, [0, 1]⟩ ⟨2, [1, 0]⟩
    (by norm_num) (by norm_num) (by norm_num)

/-! ## What `is_in_range` tests -/

/-- For a range that ends inside the tour, `is_in_range` on a valid tour is the position
test: it returns true exactly when the value stands at a position of `[begin, end)`. -/
theorem is_in_range_position {c : Chromosome} (hv : c.is_valid = true) (v b e : Nat)
    (he : e ≤ c.order_.length) :
    ∃ r, c.is_in_range v b e = .ok r ∧
      (r = true ↔ ∃ p, b ≤ p ∧ p < e ∧ c.order_[p]? = some v) := by
  have hn : c.order_.Nodup :=
    (perm_of_is_valid hv).nodup_iff.mpr (List.nodup_range _)
  refine ⟨inWin c b e v, is_in_range_of_valid hv v b e, ?_⟩
  unfold inWin
  rw [decide_eq_true_iff]
  constructor
  · rintro ⟨h1, h2⟩
    have hlt : List.indexOf v c.order_ < c.order_.length := by omega
    exact ⟨_, h1, h2, by rw [List.getElem?_eq_getElem hlt, List.getElem_indexOf hlt]⟩
  · rintro ⟨p, h1, h2, h3⟩
    obtain ⟨hp, hpv⟩ := List.getElem?_eq_some_iff.mp h3
    have : List.indexOf v c.order_ = p := by
      rw [← hpv]; exact List.indexOf_getElem hn p hp
    omega

/-- C16, failing input: the valid tour `[0, 1]` of `N = 2` cities, the value 5, which does
not appear in the tour, and the range `[0, 3)`. `std::find` returns the end of the vector,
so the position computed for the absent value is `N = 2`, which lies in `[0, 3)`:
`is_in_range` returns true although no position of the range holds the value. -/
theorem is_in_range_absent_value :
    (⟨2, [0, 1]⟩ : Chromosome).is_valid = true ∧
    (⟨2, [0, 1]⟩ : Chromosome).is_in_range 5 0 3 = .ok true ∧
    (5 : Nat) ∉ ([0, 1] : List Nat) ∧
    ¬ ∃ p, 0 ≤ p ∧ p < 3 ∧ ([0, 1] : List Nat)[p]? = some 5 := by
  refine ⟨by decide, by decide, by decide, ?_⟩
  rintro ⟨p, _, hp, h⟩
  interval_cases p <;> simp at h

/-! ## The index read by `select_parent` -/

/-- C19, failing input: a population of two individuals of fitness 1 each and the draw
`x = 0`, a value of `[0, fitness_sum) = [0, 2)`. The test `partial_sum < fixed` is false at
once, so `index` is still `-1` when `pop_[index]` is read: the read is outside the vector.
The same happens on the draw `0` for every population. -/
theorem select_parent_index_at_zero :
    (0 : ℚ) ≤ 0 ∧ (0 : ℚ) < fitness_sum ([1, 1] : List ℚ) ∧
    select_loop (0 : ℚ) [1, 1] (-1) 0 = .ok (-1) ∧
    select_parent_index ([1, 1] : List ℚ) 0 = .error .out_of_bounds ∧
    Deme.select_parent (fun _ => 50) [⟨2, [0, 1]⟩, ⟨2, [1, 0]⟩] ⟨1 / 10, 2, [0, 1]⟩ 0
      = .error .out_of_bounds ∧
    ∀ fit : List ℚ, select_loop (0 : ℚ) fit (-1) 0 = .ok (-1) ∧
      select_parent_index fit 0 = .error .out_of_bounds := by
  refine ⟨le_refl _, by norm_num [fitness_sum], by decide!, by decide!, by decide!, ?_⟩
  intro fit
  have h : select_loop (0 : ℚ) fit (-1) 0 = .ok (-1) := by
    cases fit <;> simp [select_loop]
  exact ⟨h, by simp [select_parent_index, h]⟩

/-! ## Odd population sizes -/

theorem compute_next_generation_odd (total_distance : List Nat → ℚ) (d : Deme) (w : World)
    (hodd : d.pop_size_ % 2 = 1) :
    d.compute_next_generation total_distance w = .error .assertion := by
  unfold Deme.compute_next_generation
  rw [if_pos (by omega)]

/-- C15 (amended). Odd population sizes are not rejected at construction: for every odd
`pop_size` (the permutations that `random_permutation` hands in being valid) the
constructor returns a deme that holds `pop_size` individuals. The rejection comes with the
first generation advance: every call of `compute_next_generation` on that deme fails the
assertion that `pop_size_` is even. -/
theorem odd_population_rejected_at_generation (cities_size pop_size : Nat) (mut_rate : ℚ)
    (perms : List (List Nat)) (h : Heap) (hodd : pop_size % 2 = 1)
    (hperms : pop_size ≤ perms.length)
    (hvalid : ∀ perm ∈ perms.take pop_size, perm.Perm (List.range cities_size)) :
    ∃ d h', Deme.construct cities_size pop_size mut_rate perms h
        = .ok (d, h', perms.drop pop_size) ∧
      d.pop_size_ = pop_size ∧ d.pop_.length = pop_size ∧
      ∀ (total_distance : List Nat → ℚ) (w : World),
        d.compute_next_generation total_distance w = .error .assertion := by
  obtain ⟨pop', h', hres, hl⟩ := construct_loop_spec cities_size pop_size perms [] h hperms hvalid
  refine ⟨⟨mut_rate, pop_size, pop'⟩, h', ?_, rfl, by simpa using hl, ?_⟩
  · simp only [Deme.construct, hres]
  · intro total_distance w
    exact compute_next_generation_odd total_distance _ w hodd

theorem odd_population_rejected_at_generation_witness :
    ∃ d h', Deme.construct 3 1 (1 / 10) [[0, 1, 2]] []
        = .ok (d, h', ([[0, 1, 2]] : List (List Nat)).drop 1) ∧
      d.pop_size_ = 1 ∧ d.pop_.length = 1 ∧
      ∀ (total_distance : List Nat → ℚ) (w : World),
        d.compute_next_generation total_distance w = .error .assertion :=
  odd_population_rejected_at_generation 3 1 (1 / 10) [[0, 1, 2]] [] (by decide) (by decide)
    (by decide)

/-- C15, as stated, fails: constructing a deme with the odd `pop_size = 1` over a catalog of
3 cities returns a deme with one individual; no contract violation is raised. -/
theorem construct_accepts_odd_pop_size :
    1 % 2 = 1 ∧
    Deme.construct 3 1 (1 / 10) [[0, 1, 2]] []
      = .ok (⟨1 / 10, 1, [0]⟩, [⟨3, [0, 1, 2]⟩], []) := by
  exact ⟨by decide, by decide!⟩

/-! ## The resampling loops -/

theorem recombine_redraw_e_mem :
    ∀ (ds : List Nat) (e₀ e : Nat) (ds' : List Nat),
      recombine_redraw_e e₀ ds = .ok (e, ds') → e = e₀ ∨ e ∈ ds := by
  intro ds
  induction ds with
  | nil =>
    intro e₀ e ds' h
    unfold recombine_redraw_e at h
    split at h
    · simp at h
    · simp only [Except.ok.injEq, Prod.mk.injEq] at h
      exact Or.inl h.1.symm
  | cons d ds ih =>
    intro e₀ e ds' h
    unfold recombine_redraw_e at h
    split at h
    · rcases ih d e ds' h with h1 | h1
      · exact Or.inr (h1 ▸ List.mem_cons_self _ _)
      · exact Or.inr (List.mem_cons_of_mem _ h1)
    · simp only [Except.ok.injEq, Prod.mk.injEq] at h
      exact Or.inl h.1.symm

/-- The end point `e` with which `recombine` leaves its loops is one of the draws. -/
theorem recombine_cut_points_mem {draws ds : List Nat} {b e : Nat}
    (h : recombine_cut_points draws = .ok ((b, e), ds)) : e ∈ draws := by
  unfold recombine_cut_points at h
  match draws, h with
  | b₀ :: e₀ :: rest, h =>
    simp only at h
    cases he : recombine_redraw_e e₀ rest with
    | error f => rw [he] at h; simp at h
    | ok r =>
      obtain ⟨e₁, ds₁⟩ := r
      rw [he] at h
      simp only at h
      cases hb : recombine_redraw_b e₁ b₀ ds₁ with
      | error f => rw [hb] at h; simp at h
      | ok r =>
        obtain ⟨b₁, ds₂⟩ := r
        rw [hb] at h
        simp only [Except.ok.injEq, Prod.mk.injEq] at h
        obtain ⟨⟨_, rfl⟩, _⟩ := h
        rcases recombine_redraw_e_mem _ _ _ _ he with h1 | h1
        · rw [h1]; simp
        · simp [h1]

theorem mutate_redraw_stuck :
    ∀ (draws : List Nat) (pt1 pt2 : Nat), pt1 < 1 → pt2 < 1 → (∀ x ∈ draws, x < 1) →
      mutate_redraw pt1 pt2 draws = .error .no_more_draws := by
  intro draws
  induction draws with
  | nil =>
    intro pt1 pt2 h1 h2 _
    have : pt1 = pt2 := by omega
    simp [mutate_redraw, this]
  | cons d ds ih =>
    intro pt1 pt2 h1 h2 hd
    have : pt1 = pt2 := by omega
    simp only [mutate_redraw, this, if_true]
    exact this ▸ ih pt1 d h1 (hd d (List.mem_cons_self _ _))
      (fun x hx => hd x (List.mem_cons_of_mem _ hx))

theorem recombine_redraw_e_stuck :
    ∀ (draws : List Nat) (e : Nat), e < 1 → (∀ x ∈ draws, x < 1) →
      recombine_redraw_e e draws = .error .no_more_draws := by
  intro draws
  induction draws with
  | nil =>
    intro e h1 _
    have : e = 0 := by omega
    simp [recombine_redraw_e, this]
  | cons d ds ih =>
    intro e h1 hd
    have : e = 0 := by omega
    simp only [recombine_redraw_e, this, if_true]
    exact ih d (hd d (List.mem_cons_self _ _)) (fun x hx => hd x (List.mem_cons_of_mem _ hx))

theorem recombine_redraw_e_accept {e : Nat} (he : e ≠ 0) (rest : List Nat) :
    recombine_redraw_e e rest = .ok (e, rest) := by
  cases rest <;> simp [recombine_redraw_e, he]

theorem recombine_redraw_b_accept {b e : Nat} (hbe : b < e) (rest : List Nat) :
    recombine_redraw_b e b rest = .ok (b, rest) := by
  have h : ¬ b ≥ e := by omega
  cases rest <;> simp only [recombine_redraw_b, h, if_false]

/-- C17. Rejection loops can always exit when `N ≥ 2`: over draws of `[0, N)`, in `mutate`
every `pt1` has a `pt2 ≠ pt1` on which the loop stops; in `recombine` there is an `e ≠ 0` on
which the `e`-loop stops and every such `e` has a `b < e` on which the `b`-loop stops; and
cut points with which `recombine` leaves its loops satisfy `0 ≤ b < e ≤ N` and `e > 0`.
For `N = 1`, whatever draws of `[0, 1)` are supplied, `mutate`'s loop and `recombine`'s
`e`-loop never stop: they use up all the draws. -/
theorem rejection_loops_can_exit (N : Nat) (hN : 2 ≤ N) :
    (∀ pt1, pt1 < N → ∃ pt2, pt2 < N ∧ pt2 ≠ pt1 ∧
      ∀ rest, mutate_redraw pt1 pt2 rest = .ok (pt2, rest)) ∧
    (∃ e, e < N ∧ e ≠ 0 ∧ ∀ rest, recombine_redraw_e e rest = .ok (e, rest)) ∧
    (∀ e, e < N → e ≠ 0 → ∃ b, b < N ∧ b < e ∧
      ∀ rest, recombine_redraw_b e b rest = .ok (b, rest)) ∧
    (∀ (draws ds : List Nat) (b e : Nat), (∀ x ∈ draws, x < N) →
      recombine_cut_points draws = .ok ((b, e), ds) → 0 ≤ b ∧ b < e ∧ e ≤ N ∧ e > 0) ∧
    (∀ (pt1 pt2 : Nat) (draws : List Nat), pt1 < 1 → pt2 < 1 → (∀ x ∈ draws, x < 1) →
      pt2 = pt1 ∧ mutate_redraw pt1 pt2 draws = .error .no_more_draws) ∧
    (∀ (e : Nat) (draws : List Nat), e < 1 → (∀ x ∈ draws, x < 1) →
      e = 0 ∧ recombine_redraw_e e draws = .error .no_more_draws) := by
  refine ⟨?_, ?_, ?_, ?_, ?_, ?_⟩
  · intro pt1 h1
    by_cases h0 : pt1 = 0
    · exact ⟨1, by omega, by omega, fun rest => mutate_redraw_accept (by omega) rest⟩
    · exact ⟨0, by omega, by omega, fun rest => mutate_redraw_accept h0 rest⟩
  · exact ⟨1, by omega, by omega, fun rest => recombine_redraw_e_accept (by omega) rest⟩
  · intro e _ he
    exact ⟨0, by omega, by omega, fun rest => recombine_redraw_b_accept (by omega) rest⟩
  · intro draws ds b e hd hcut
    have hlt := recombine_cut_points_lt hcut
    have hmem := hd e (recombine_cut_points_mem hcut)
    exact ⟨Nat.zero_le _, hlt, by omega, by omega⟩
  · intro pt1 pt2 draws h1 h2 hd
    exact ⟨by omega, mutate_redraw_stuck draws pt1 pt2 h1 h2 hd⟩
  · intro e draws h1 hd
    exact ⟨by omega, recombine_redraw_e_stuck draws e h1 hd⟩

theorem rejection_loops_can_exit_witness :
    (∀ pt1, pt1 < 2 → ∃ pt2, pt2 < 2 ∧ pt2 ≠ pt1 ∧
      ∀ rest, mutate_redraw pt1 pt2 rest = .ok (pt2, rest)) ∧
    (∃ e, e < 2 ∧ e ≠ 0 ∧ ∀ rest, recombine_redraw_e e rest = .ok (e, rest)) ∧
    (∀ e, e < 2 → e ≠ 0 → ∃ b, b < 2 ∧ b < e ∧
      ∀ rest, recombine_redraw_b e b rest = .ok (b, rest)) ∧
    (∀ (draws ds : List Nat) (b e : Nat), (∀ x ∈ draws, x < 2) →
      recombine_cut_points draws = .ok ((b, e), ds) → 0 ≤ b ∧ b < e ∧ e ≤ 2 ∧ e > 0) ∧
    (∀ (pt1 pt2 : Nat) (draws : List Nat), pt1 < 1 → pt2 < 1 → (∀ x ∈ draws, x < 1) →
      pt2 = pt1 ∧ mutate_redraw pt1 pt2 draws = .error .no_more_draws) ∧
    (∀ (e : Nat) (draws : List Nat), e < 1 → (∀ x ∈ draws, x < 1) →
      e = 0 ∧ recombine_redraw_e e draws = .error .no_more_draws) :=
  rejection_loops_can_exit 2 (by decide)

/-! ## `get_best` -/

theorem fitnesses_cons {total_distance : List Nat → ℚ} {h : Heap} {p : Nat} {ps : List Nat}
    {fs : List ℚ} (hf : fitnesses total_distance h (p :: ps) = .ok fs) :
    ∃ c fs', h[p]? = some c ∧ fitnesses total_distance h ps = .ok fs' ∧
      fs = c.get_fitness total_distance :: fs' := by
  unfold fitnesses at hf
  split at hf
  · simp at hf
  · rename_i c hc
    split at hf
    · simp at hf
    · rename_i fs' hfs
      simp only [Except.ok.injEq] at hf
      exact ⟨c, fs', hc, hfs, hf.symm⟩

/-- The scan keeps `fittest` when no fitness still to come exceeds `best`; otherwise it
returns the first pointer whose fitness is the largest one still to come. -/
theorem get_best_loop_spec (total_distance : List Nat → ℚ) (h : Heap) :
    ∀ (ps : List Nat) (fs : List ℚ) (best : ℚ) (fittest : Nat),
      fitnesses total_distance h ps = .ok fs →
      ((∀ f ∈ fs, f ≤ best) ∧
          get_best_loop total_distance h ps best fittest = .ok fittest) ∨
        ∃ i p m, ps[i]? = some p ∧ fs[i]? = some m ∧ best < m ∧ (∀ f ∈ fs, f ≤ m) ∧
          (∀ (j : Nat) (f : ℚ), j < i → fs[j]? = some f → f < m) ∧
          get_best_loop total_distance h ps best fittest = .ok p := by
  intro ps
  induction ps with
  | nil =>
    intro fs best fittest hf
    simp only [fitnesses, Except.ok.injEq] at hf
    subst hf
    exact Or.inl ⟨by simp, rfl⟩
  | cons p ps ih =>
    intro fs best fittest hf
    obtain ⟨c, fs', hc, hfs, rfl⟩ := fitnesses_cons hf
    by_cases hgt : c.get_fitness total_distance > best
    · have hstep : get_best_loop total_distance h (p :: ps) best fittest
          = get_best_loop total_distance h ps (c.get_fitness total_distance) p := by
        simp only [get_best_loop, hc, hgt, if_true]
      rcases ih fs' (c.get_fitness total_distance) p hfs with ⟨hall, hres⟩ | ⟨i, q, m, h1, h2, h3, h4, h5, hres⟩
      · refine Or.inr ⟨0, p, c.get_fitness total_distance, by simp, by simp, hgt, ?_, ?_, ?_⟩
        · intro f hfm
          rcases List.mem_cons.mp hfm with rfl | hfm
          · exact le_refl _
          · exact hall f hfm
        · intro j f hj _
          exact absurd hj (Nat.not_lt_zero _)
        · rw [hstep, hres]
      · refine Or.inr ⟨i + 1, q, m, by simpa using h1, by simpa using h2,
          lt_trans hgt h3, ?_, ?_, ?_⟩
        · intro f hfm
          rcases List.mem_cons.mp hfm with rfl | hfm
          · exact le_of_lt h3
          · exact h4 f hfm
        · intro j f hj hjf
          cases j with
          | zero =>
            simp only [List.getElem?_cons_zero, Option.some.injEq] at hjf
            rw [← hjf]; exact h3
          | succ j =>
            simp only [List.getElem?_cons_succ] at hjf
            exact h5 j f (by omega) hjf
        · rw [hstep, hres]
    · have hle : c.get_fitness total_distance ≤ best := not_lt.mp hgt
      have hstep : get_best_loop total_distance h (p :: ps) best fittest
          = get_best_loop total_distance h ps best fittest := by
        simp only [get_best_loop, hc, hgt, if_false]
      rcases ih fs' best fittest hfs with ⟨hall, hres⟩ | ⟨i, q, m, h1, h2, h3, h4, h5, hres⟩
      · refine Or.inl ⟨?_, by rw [hstep, hres]⟩
        intro f hfm
        rcases List.mem_cons.mp hfm with rfl | hfm
        · exact hle
        · exact hall f hfm
      · refine Or.inr ⟨i + 1, q, m, by simpa using h1, by simpa using h2, h3, ?_, ?_, ?_⟩
        · intro f hfm
          rcases List.mem_cons.mp hfm with rfl | hfm
          · exact le_of_lt (lt_of_le_of_lt hle h3)
          · exact h4 f hfm
        · intro j f hj hjf
          cases j with
          | zero =>
            simp only [List.getElem?_cons_zero, Option.some.injEq] at hjf
            rw [← hjf]; exact lt_of_le_of_lt hle h3
          | succ j =>
            simp only [List.getElem?_cons_succ] at hjf
            exact h5 j f (by omega) hjf
        · rw [hstep, hres]

/-- C12. The function `get_best` returns the first maximum: on a non-empty population whose
fitness values `fit` are strictly positive, `get_best` returns the pointer `pop_[i]` held
by the population itself (no copy is made and the function writes nothing), where the
fitness at `i` is greater than or equal to every fitness of the population and strictly
greater than every fitness at a lower index. -/
theorem get_best_first_maximum (total_distance : List Nat → ℚ) (h : Heap) (d : Deme)
    (fit : List ℚ) (hne : d.pop_ ≠ [])
    (hfit : fitnesses total_distance h d.pop_ = .ok fit) (hpos : ∀ f ∈ fit, 0 < f) :
    ∃ i p m, d.pop_[i]? = some p ∧ d.get_best total_distance h = .ok p ∧
      fit[i]? = some m ∧ (∀ f ∈ fit, f ≤ m) ∧ (∀ (j : Nat) (f : ℚ), j < i → fit[j]? = some f → f < m) := by
  cases hp : d.pop_ with
  | nil => exact absurd hp hne
  | cons first rest =>
    rw [hp] at hfit
    have hget : d.get_best total_distance h
        = get_best_loop total_distance h (first :: rest) 0 first := by
      simp only [Deme.get_best, hp]
    rcases get_best_loop_spec total_distance h (first :: rest) fit 0 first hfit with
      ⟨hall, _⟩ | ⟨i, p, m, h1, h2, _, h4, h5, hres⟩
    · obtain ⟨c, fs', _, _, rfl⟩ := fitnesses_cons hfit
      have h0 := hpos _ (List.mem_cons_self _ _)
      have h1 := hall _ (List.mem_cons_self _ _)
      exact absurd h0 (not_lt.mpr h1)
    · exact ⟨i, p, m, h1, by rw [hget, hres], h2, h4, h5⟩

theorem get_best_first_maximum_witness :
    ∃ i p m, (⟨1 / 10, 3, [0, 1, 2]⟩ : Deme).pop_[i]? = some p ∧
      (⟨1 / 10, 3, [0, 1, 2]⟩ : Deme).get_best (fun l => (l.headD 0 : ℚ) + 1)
        [⟨3, [1, 0, 2]⟩, ⟨3, [0, 1, 2]⟩, ⟨3, [0, 2, 1]⟩] = .ok p ∧
      ([25, 50, 50] : List ℚ)[i]? = some m ∧ (∀ f ∈ ([25, 50, 50] : List ℚ), f ≤ m) ∧
      (∀ (j : Nat) (f : ℚ), j < i → ([25, 50, 50] : List ℚ)[j]? = some f → f < m) :=
  get_best_first_maximum (fun l => (l.headD 0 : ℚ) + 1)
    [⟨3, [1, 0, 2]⟩, ⟨3, [0, 1, 2]⟩, ⟨3, [0, 2, 1]⟩] ⟨1 / 10, 3, [0, 1, 2]⟩ [25, 50, 50]
    (by decide) (by decide!) (by intro f hf; simp at hf; rcases hf with rfl | rfl <;> norm_num)

/-- On a tie the earlier individual wins: with the fitness values 25, 50 and 50 the scan
returns the pointer at index 1. -/
theorem get_best_tie_example :
    (⟨1 / 10, 3, [0, 1, 2]⟩ : Deme).get_best (fun l => (l.headD 0 : ℚ) + 1)
      [⟨3, [1, 0, 2]⟩, ⟨3, [0, 1, 2]⟩, ⟨3, [0, 2, 1]⟩] = .ok 1 := by
  decide!

/-! ## The cursor of the crossover loop -/

/-- The loop with its exit state made visible computes what `crossover_loop` computes. -/
theorem crossover_loop_exit_erase (p1 p2 : Chromosome) (b e : Nat) :
    ∀ (s : List Nat) (i j : Nat) (child : List Nat),
      crossover_loop p1 p2 b e s i j child
        = match crossover_loop_exit p1 p2 b e s i j child with
          | .error f => .error f
          | .ok (_, _, c) => .ok c := by
  intro s
  induction s with
  | nil => intro i j child; simp [crossover_loop, crossover_loop_exit]
  | cons x rest ih =>
    intro i j child
    unfold crossover_loop crossover_loop_exit
    split
    · split
      · exact ih _ _ _
      · split
        · rfl
        · split
          · rfl
          · exact ih _ _ _
    · rfl

/-- One pass of the loop with visible exit state at a position outside the window. -/
theorem crossover_loop_exit_outside {p1 p2 : Chromosome} (hv : p1.is_valid = true)
    {b e : Nat} (x : Nat) (rest : List Nat) {i j : Nat} (child : List Nat) {f : Nat}
    {F : List Nat} (hi : ¬ (b ≤ i ∧ i < e)) (hF : pending p1 p2 b e j = f :: F) :
    ∃ j', pending p1 p2 b e (j' + 1) = F ∧ j' + 1 ≤ p2.order_.length ∧
      crossover_loop_exit p1 p2 b e (x :: rest) i j child
        = crossover_loop_exit p1 p2 b e rest (i + 1) (j' + 1) (child.set i f) := by
  have hj : j < p2.order_.length := by
    by_contra hc
    rw [pending_nil_of_le (Nat.le_of_not_lt hc)] at hF
    exact List.noConfusion hF
  obtain ⟨k, h1, h2, h3⟩ := skip_in_range_spec hv b e (p2.order_.drop j) j f F hF
  rw [List.getElem?_drop] at h2
  refine ⟨j + k, ?_, ?_, ?_⟩
  · unfold pending
    rw [List.drop_drop] at h3
    rw [show j + k + 1 = j + (k + 1) by omega]
    exact h3
  · have := (List.getElem?_eq_some_iff.mp h2).1
    omega
  · simp only [crossover_loop_exit, hj, if_true, hi, if_false, h1, h2]

theorem exit_state_ok_step {p2 : Chromosome} {b e N i : Nat} {child : List Nat} {v : Nat}
    {r : Nat × Nat × List Nat} (h : exit_state_ok p2 b e N (i + 1) (child.set i v) r) :
    exit_state_ok p2 b e N i child r := by
  obtain ⟨h1, h2, h3, h4, h5, h6⟩ := h
  refine ⟨by omega, h2, h3, h4, h5, ?_⟩
  intro k hk
  rw [h6 k hk, List.getElem?_set_ne (by omega)]

theorem crossover_loop_exit_tail {p1 p2 : Chromosome} (hv : p1.is_valid = true)
    {b e N : Nat} :
    ∀ (s : List Nat) (i j : Nat) (child : List Nat),
      e ≤ i → i + s.length = N → (pending p1 p2 b e j).length = s.length →
      j ≤ p2.order_.length →
      ∃ r, crossover_loop_exit p1 p2 b e s i j child = .ok r ∧
        exit_state_ok p2 b e N i child r := by
  intro s
  induction s with
  | nil =>
    intro i j child _ hlen _ hj
    refine ⟨(i, j, child), by simp [crossover_loop_exit], le_refl _, ?_, hj, ?_, ?_, ?_⟩
    · simp at hlen; omega
    · intro h; simp at hlen h; omega
    · intro k hk hkN; simp at hlen hk; omega
    · intro k _; rfl
  | cons x rest ih =>
    intro i j child hei hlen hF hj
    obtain ⟨f, F, hfF⟩ : ∃ f F, pending p1 p2 b e j = f :: F := by
      cases hp : pending p1 p2 b e j with
      | nil => rw [hp] at hF; simp at hF
      | cons f F => exact ⟨f, F, rfl⟩
    obtain ⟨j', hj', hjl, hstep⟩ :=
      crossover_loop_exit_outside hv x rest child (show ¬ (b ≤ i ∧ i < e) by omega) hfF
    obtain ⟨r, hr, hok⟩ := ih (i + 1) (j' + 1) (child.set i f) (by omega)
      (by simp at hlen; omega) (by rw [hj']; rw [hfF] at hF; simpa using hF) hjl
    exact ⟨r, by rw [hstep, hr], exit_state_ok_step hok⟩

theorem crossover_loop_exit_window {p1 p2 : Chromosome} (hv : p1.is_valid = true)
    {b e N : Nat} :
    ∀ (s : List Nat) (i j : Nat) (child : List Nat),
      b ≤ i → i ≤ e → e ≤ N → child.length = N → child.drop i = s →
      (pending p1 p2 b e j).length + e = N → j ≤ p2.order_.length →
      ∃ r, crossover_loop_exit p1 p2 b e s i j child = .ok r ∧
        exit_state_ok p2 b e N i child r := by
  intro s
  induction s with
  | nil =>
    intro i j child _ hie heN hlen hdrop _ hj
    have h1 : child.length ≤ i := List.drop_eq_nil_iff.mp hdrop
    refine ⟨(i, j, child), by simp [crossover_loop_exit], le_refl _, by omega, hj, ?_, ?_, ?_⟩
    · intro h; simp at h; omega
    · intro k hk hkN; simp at hk; omega
    · intro k _; rfl
  | cons x rest ih =>
    intro i j child hbi hie heN hlen hdrop hF hj
    have hslen : (x :: rest).length = N - i := by rw [← hdrop, List.length_drop, hlen]
    have hiN : i < N := by simp at hslen; omega
    by_cases hi : i = e
    · subst hi
      exact crossover_loop_exit_tail hv (x :: rest) i j child (le_refl _)
        (by rw [hslen]; omega) (by rw [hslen]; omega) hj
    · have hlt : i < e := by omega
      by_cases hjl : j < p2.order_.length
      · have hrest : (child.set i x).drop (i + 1) = rest := by
          rw [List.drop_set_of_lt _ _ (Nat.lt_succ_self i)]
          have := congrArg (List.drop 1) hdrop
          simpa [List.drop_drop] using this
        obtain ⟨r, hr, hok⟩ := ih (i + 1) j (child.set i x) (by omega) (by omega) heN
          (by simpa using hlen) hrest hF hj
        refine ⟨r, ?_, exit_state_ok_step hok⟩
        simp only [crossover_loop_exit, hjl, if_true, hbi, hlt, and_self, hr]
      · have hF' : pending p1 p2 b e j = [] := pending_nil_of_le (Nat.le_of_not_lt hjl)
        rw [hF'] at hF
        simp only [List.length_nil, Nat.zero_add] at hF
        refine ⟨(i, j, child), by simp only [crossover_loop_exit, hjl, if_false],
          le_refl _, by omega, hj, fun _ => by simp; omega, ?_, fun k _ => rfl⟩
        intro k hk hkN
        simp at hk
        omega

theorem crossover_loop_exit_head {p1 p2 : Chromosome} (hv : p1.is_valid = true)
    {b e N : Nat} (hbe : b < e) (heN : e ≤ N) :
    ∀ (s : List Nat) (i j : Nat) (child : List Nat),
      i ≤ b → child.length = N → child.drop i = s →
      (pending p1 p2 b e j).length + (e - b) + i = N → j ≤ p2.order_.length →
      ∃ r, crossover_loop_exit p1 p2 b e s i j child = .ok r ∧
        exit_state_ok p2 b e N i child r := by
  intro s
  induction s with
  | nil =>
    intro i j child hib hlen hdrop _ _
    have h1 : child.length ≤ i := List.drop_eq_nil_iff.mp hdrop
    omega
  | cons x rest ih =>
    intro i j child hib hlen hdrop hF hj
    by_cases hi : i = b
    · subst hi
      exact crossover_loop_exit_window hv (x :: rest) i j child (le_refl _) (by omega) heN
        hlen hdrop (by omega) hj
    · have hlt : i < b := by omega
      obtain ⟨f, F, hfF⟩ : ∃ f F, pending p1 p2 b e j = f :: F := by
        cases hp : pending p1 p2 b e j with
        | nil => rw [hp] at hF; simp at hF; omega
        | cons f F => exact ⟨f, F, rfl⟩
      obtain ⟨j', hj', hjl, hstep⟩ :=
        crossover_loop_exit_outside hv x rest child (show ¬ (b ≤ i ∧ i < e) by omega) hfF
      have hrest : (child.set i f).drop (i + 1) = rest := by
        rw [List.drop_set_of_lt _ _ (Nat.lt_succ_self i)]
        have := congrArg (List.drop 1) hdrop
        simpa [List.drop_drop] using this
      obtain ⟨r, hr, hok⟩ := ih (i + 1) (j' + 1) (child.set i f) (by omega)
        (by simpa using hlen) hrest (by rw [hj']; rw [hfF] at hF; simp at hF; omega) hjl
      exact ⟨r, by rw [hstep, hr], exit_state_ok_step hok⟩

/-- C18. The crossover fill cursor never runs off the second parent: on permutations `p1`,
`p2` of `[0, N)` and `0 ≤ b < e ≤ N`, `create_crossover_child` returns, so that no read
`p2.order_[j]` left the vector and the assertion `j < p2.order_.size()` held at every copy
(either would have stopped the call); the cursor `j` is at most `N` when the loop is left,
and every read was made below it. When the loop is left early, at a position `i < N`
because `j` reached `N`, every position from `i` on lies in `[b, e)` and holds `p1`'s
value. -/
theorem crossover_cursor_stays_inside (N b e : Nat) (p1 p2 : Chromosome)
    (hc : p1.cities_size = N)
    (hp1 : p1.order_.Perm (List.range N)) (hp2 : p2.order_.Perm (List.range N))
    (hbe : b < e) (heN : e ≤ N) :
    ∃ (child : Chromosome) (i j : Nat),
      create_crossover_child p1 p2 b e = .ok child ∧
      crossover_loop_exit p1 p2 b e p1.order_ 0 0 p1.order_ = .ok (i, j, child.order_) ∧
      p2.order_.length = N ∧ i ≤ N ∧ j ≤ N ∧ (i < N → j = N) ∧
      ∀ k, i ≤ k → k < N → b ≤ k ∧ k < e ∧ child.order_[k]? = p1.order_[k]? := by
  have hv : p1.is_valid = true := is_valid_of_perm hp1 (by omega)
  have hlen1 : p1.order_.length = N := by simpa using hp1.length_eq
  have hlen2 : p2.order_.length = N := by simpa using hp2.length_eq
  have hpend := pending_length hp1 hp2 hbe heN
  obtain ⟨r, hr, _, h2, h3, h4, h5, h6⟩ :=
    crossover_loop_exit_head hv hbe heN p1.order_ 0 0 p1.order_ (Nat.zero_le _) hlen1 rfl
      (show (pending p1 p2 b e 0).length + (e - b) + 0 = N by omega) (Nat.zero_le _)
  have hloop := crossover_loop_full hv hbe heN hlen1 hpend
  rw [crossover_loop_exit_erase, hr] at hloop
  simp only [Except.ok.injEq] at hloop
  obtain ⟨i, j, c⟩ := r
  simp only at hloop h2 h3 h4 h5 h6
  subst hloop
  exact ⟨_, i, j, create_crossover_child_eq hc hp1 hp2 hbe heN, hr, hlen2, h2,
    by omega, fun h => by rw [h4 h, hlen2], fun k hk hkN => ⟨(h5 k hk hkN).1, (h5 k hk hkN).2,
      h6 k hk⟩⟩

theorem crossover_cursor_stays_inside_witness :
    (∃ (child : Chromosome) (i j : Nat),
      create_crossover_child ⟨5, [0, 1, 2, 3, 4]⟩ ⟨5, [4, 3, 2, 1, 0]⟩ 2 5 = .ok child ∧
      crossover_loop_exit ⟨5, [0, 1, 2, 3, 4]⟩ ⟨5, [4, 3, 2, 1, 0]⟩ 2 5
        [0, 1, 2, 3, 4] 0 0 [0, 1, 2, 3, 4] = .ok (i, j, child.order_) ∧
      [4, 3, 2, 1, 0].length = 5 ∧ i ≤ 5 ∧ j ≤ 5 ∧ (i < 5 → j = 5) ∧
      ∀ k, i ≤ k → k < 5 → 2 ≤ k ∧ k < 5 ∧ child.order_[k]? = [0, 1, 2, 3, 4][k]?) ∧
    crossover_loop_exit ⟨5, [0, 1, 2, 3, 4]⟩ ⟨5, [4, 3, 2, 1, 0]⟩ 2 5
        [0, 1, 2, 3, 4] 0 0 [0, 1, 2, 3, 4] = .ok (2, 5, [1, 0, 2, 3, 4]) :=
  ⟨crossover_cursor_stays_inside 5 2 5 ⟨5, [0, 1, 2, 3, 4]⟩ ⟨5, [4, 3, 2, 1, 0]⟩ rfl
    (by decide) (by decide) (by decide) (by decide), by decide⟩

/-! ## Replacement of the population -/

theorem generation_body_kids_erase (total_distance : List Nat → ℚ) (d : Deme) (i : Nat)
    (next_gen : List Nat) (w : World) :
    generation_body total_distance d i next_gen w
      = match generation_body_kids total_distance d i next_gen w with
        | .error f => .error f
        | .ok (_, ng, w') => .ok (ng, w') := by
  unfold generation_body generation_body_kids
  repeat' split
  all_goals first
    | rfl
    | simp_all

theorem generation_loop_kids_erase (total_distance : List Nat → ℚ) (d : Deme) :
    ∀ (fuel i : Nat) (next_gen : List Nat) (w : World),
      generation_loop total_distance d fuel i next_gen w
        = match generation_loop_kids total_distance d fuel i next_gen w with
          | .error f => .error f
          | .ok (_, ng, w') => .ok (ng, w') := by
  intro fuel
  induction fuel with
  | zero =>
    intro i next_gen w
    unfold generation_loop generation_loop_kids
    split <;> rfl
  | succ fuel ih =>
    intro i next_gen w
    unfold generation_loop generation_loop_kids
    split
    · rw [generation_body_kids_erase]
      cases generation_body_kids total_distance d i next_gen w with
      | error f => rfl
      | ok r =>
        obtain ⟨kids, ng, w1⟩ := r
        simp only
        rw [ih]
        cases generation_loop_kids total_distance d fuel (i + 1 + 1) ng w1 with
        | error f => rfl
        | ok r => rfl
    · rfl

theorem compute_next_generation_kids_erase (total_distance : List Nat → ℚ) (d : Deme)
    (w : World) :
    d.compute_next_generation total_distance w
      = match d.compute_next_generation_kids total_distance w with
        | .error f => .error f
        | .ok (_, d', w') => .ok (d', w') := by
  unfold Deme.compute_next_generation Deme.compute_next_generation_kids
  split
  · rfl
  · simp only
    rw [generation_loop_kids_erase]
    cases generation_loop_kids total_distance d d.pop_size_ 0 d.pop_ w with
    | error f => rfl
    | ok r => rfl

/-- A child pointer that a child loop returns is a fresh address. -/
theorem recombine_child_bounds {p1 p2 : Chromosome} {b e self other : Nat} :
    ∀ (fuel : Nat) (h h' : Heap) (child : Nat),
      recombine_child p1 p2 b e self other fuel h = .ok (child, h') →
      h.length ≤ child ∧ child < h'.length := by
  intro fuel
  induction fuel with
  | zero => intro h h' child hr; simp [recombine_child] at hr
  | succ fuel ih =>
    intro h h' child hr
    unfold recombine_child at hr
    split at hr
    · simp at hr
    · simp only [Heap.alloc] at hr
      split at hr
      · have := ih _ _ _ hr
        simp only [List.length_append, List.length_singleton] at this
        omega
      · simp only [Except.ok.injEq, Prod.mk.injEq] at hr
        obtain ⟨rfl, rfl⟩ := hr
        simp

/-- Both pointers that `recombine` returns are addresses allocated during the call. -/
theorem recombine_bounds {h h' : Heap} {self other : Nat} {draws ds : List Nat}
    {kids : Nat × Nat} (hr : recombine h self other draws = .ok (kids, h', ds)) :
    h.length ≤ kids.1 ∧ kids.1 < h'.length ∧ h.length ≤ kids.2 ∧ kids.2 < h'.length := by
  unfold recombine at hr
  repeat' split at hr
  all_goals first
    | (simp at hr; done)
    | (rename_i hc1 _ _ _ _ _ hc2 _ _
       simp only [Except.ok.injEq, Prod.mk.injEq] at hr
       obtain ⟨rfl, rfl, _⟩ := hr
       have b1 := recombine_child_bounds _ _ _ _ hc1
       have b2 := recombine_child_bounds _ _ _ _ hc2
       simp only
       omega)

theorem maybe_mutate_heap_length {d : Deme} {parent : Nat} {w w' : World}
    (hm : maybe_mutate d parent w = .ok w') : w'.heap.length = w.heap.length := by
  unfold maybe_mutate at hm
  repeat' split at hm
  all_goals first
    | (simp at hm; done)
    | (simp only [Except.ok.injEq] at hm
       rw [← hm]
       try simp)

theorem draw_parent_heap {total_distance : List Nat → ℚ} {d : Deme} {w w' : World}
    {parent : Nat} (hd : draw_parent total_distance d w = .ok (parent, w')) :
    w'.heap = w.heap := by
  unfold draw_parent at hd
  repeat' split at hd
  all_goals first
    | (simp at hd; done)
    | (simp only [Except.ok.injEq, Prod.mk.injEq] at hd
       rw [← hd.2])

theorem store_spec {next_gen next_gen' : List Nat} {i kid : Nat}
    (h : store next_gen i kid = .ok next_gen') :
    i < next_gen.length ∧ next_gen' = next_gen.set i kid := by
  unfold store at h
  split at h
  · rename_i hi
    simp only [Except.ok.injEq] at h
    exact ⟨hi, h.symm⟩
  · exact Except.noConfusion h

/-- One pass of the generation loop writes the two children of its one recombination into
the slots `i` and `i + 1`; both are addresses allocated during the pass. -/
theorem generation_body_kids_spec {total_distance : List Nat → ℚ} {d : Deme} {i : Nat}
    {next_gen next_gen' : List Nat} {w w' : World} {kids : Nat × Nat}
    (hb : generation_body_kids total_distance d i next_gen w = .ok (kids, next_gen', w')) :
    i + 1 < next_gen.length ∧ next_gen' = (next_gen.set i kids.1).set (i + 1) kids.2 ∧
      w.heap.length ≤ kids.1 ∧ kids.1 < w'.heap.length ∧
      w.heap.length ≤ kids.2 ∧ kids.2 < w'.heap.length := by
  unfold generation_body_kids at hb
  repeat' split at hb
  all_goals first
    | (simp at hb; done)
    | (rename_i _ parent1 w1 hd _ w2 hm1 _ parent2 rest hs _ w3 hm2 _ kids0 heap0 idraws0 hr
         _ ng1 hs1 _ ng2 hs2
       simp only [Except.ok.injEq, Prod.mk.injEq] at hb
       obtain ⟨rfl, rfl, rfl⟩ := hb
       have e1 := draw_parent_heap hd
       have e2 := maybe_mutate_heap_length hm1
       have e3 := maybe_mutate_heap_length hm2
       have bnd := recombine_bounds hr
       obtain ⟨l1, rfl⟩ := store_spec hs1
       obtain ⟨l2, rfl⟩ := store_spec hs2
       simp only [List.length_set] at l2
       simp only at e3
       rw [e1] at e2
       refine ⟨l2, rfl, ?_, bnd.2.1, ?_, bnd.2.2.2⟩ <;> omega)

theorem take_set_set (l : List Nat) (i a c : Nat) (h : i + 1 < l.length) :
    ((l.set i a).set (i + 1) c).take (i + 1 + 1) = l.take i ++ [a, c] := by
  have h1 : i + 1 < (l.set i a).length := by simpa using h
  rw [take_succ_set h1, take_succ_set (by omega)]
  simp

/-- The generation loop, entered at the even index `i`, makes one recombination per pair of
remaining slots and fills the slots from `i` on with the children, pair after pair. -/
theorem generation_loop_kids_spec {total_distance : List Nat → ℚ} {d : Deme} :
    ∀ (fuel i : Nat) (next_gen next_gen' : List Nat) (w w' : World)
      (kids : List (Nat × Nat)),
      next_gen.length = d.pop_size_ → i ≤ d.pop_size_ → (d.pop_size_ - i) % 2 = 0 →
      generation_loop_kids total_distance d fuel i next_gen w = .ok (kids, next_gen', w') →
      next_gen' = next_gen.take i ++ kids_sequence kids ∧
        2 * kids.length = d.pop_size_ - i ∧ w.heap.length ≤ w'.heap.length ∧
        ∀ p ∈ kids_sequence kids, w.heap.length ≤ p ∧ p < w'.heap.length := by
  intro fuel
  induction fuel with
  | zero =>
    intro i next_gen next_gen' w w' kids hlen hi _ hl
    unfold generation_loop_kids at hl
    split at hl
    · simp at hl
    · simp only [Except.ok.injEq, Prod.mk.injEq] at hl
      obtain ⟨rfl, rfl, rfl⟩ := hl
      refine ⟨?_, by simp; omega, le_refl _, by simp [kids_sequence]⟩
      rw [List.take_of_length_le (by omega)]
      simp [kids_sequence]
  | succ fuel ih =>
    intro i next_gen next_gen' w w' kids hlen hi hpar hl
    unfold generation_loop_kids at hl
    split at hl
    · rename_i hlt
      split at hl
      · simp at hl
      · rename_i k0 ng1 w1 hb
        split at hl
        · simp at hl
        · rename_i more ng2 w2 hrec
          simp only [Except.ok.injEq, Prod.mk.injEq] at hl
          obtain ⟨rfl, rfl, rfl⟩ := hl
          obtain ⟨b1, b2, b3, b4, b5, b6⟩ := generation_body_kids_spec hb
          obtain ⟨r1, r2, r3, r4⟩ := ih (i + 1 + 1) ng1 _ w1 _ more
            (by rw [b2]; simpa using hlen) (by omega) (by omega) hrec
          refine ⟨?_, by simp; omega, by omega, ?_⟩
          · rw [r1, b2, take_set_set _ _ _ _ b1]
            simp [kids_sequence]
          · intro p hp
            simp only [kids_sequence, List.mem_cons] at hp
            rcases hp with rfl | rfl | hp
            · omega
            · omega
            · have := r4 p hp
              omega
    · rename_i hge
      simp only [Except.ok.injEq, Prod.mk.injEq] at hl
      obtain ⟨rfl, rfl, rfl⟩ := hl
      refine ⟨?_, by simp; omega, le_refl _, by simp [kids_sequence]⟩
      rw [List.take_of_length_le (by omega)]
      simp [kids_sequence]

/-- C11. Full replacement without carry-over: on a deme of even `pop_size_` whose
`pop_size_` pointers are live, every call of `compute_next_generation` that returns has
made exactly `pop_size_ / 2` recombinations, and the new population is the sequence
`child1`, `child2` of the first of them, `child1`, `child2` of the second, and so on.
Every slot of the new population holds an address allocated during the call, so a child
produced in this call, and none holds a pointer of the old population. -/
theorem full_replacement (total_distance : List Nat → ℚ) (d d' : Deme) (w w' : World)
    (heven : d.pop_size_ % 2 = 0) (hlen : d.pop_.length = d.pop_size_)
    (hlive : ∀ p ∈ d.pop_, p < w.heap.length)
    (hrun : d.compute_next_generation total_distance w = .ok (d', w')) :
    ∃ kids : List (Nat × Nat),
      d.compute_next_generation_kids total_distance w = .ok (kids, d', w') ∧
      kids.length = d.pop_size_ / 2 ∧ d'.pop_ = kids_sequence kids ∧
      d'.pop_.length = d.pop_size_ ∧
      ∀ p ∈ d'.pop_, w.heap.length ≤ p ∧ p < w'.heap.length ∧ p ∉ d.pop_ := by
  rw [compute_next_generation_kids_erase] at hrun
  cases hk : d.compute_next_generation_kids total_distance w with
  | error f => rw [hk] at hrun; simp at hrun
  | ok r =>
    obtain ⟨kids, d₁, w₁⟩ := r
    rw [hk] at hrun
    simp only [Except.ok.injEq, Prod.mk.injEq] at hrun
    obtain ⟨rfl, rfl⟩ := hrun
    refine ⟨kids, rfl, ?_⟩
    unfold Deme.compute_next_generation_kids at hk
    rw [if_neg (by omega)] at hk
    simp only at hk
    split at hk
    · simp at hk
    · rename_i ks ng w₂ hl
      simp only [Except.ok.injEq, Prod.mk.injEq] at hk
      obtain ⟨rfl, rfl, rfl⟩ := hk
      obtain ⟨r1, r2, _, r4⟩ :=
        generation_loop_kids_spec d.pop_size_ 0 d.pop_ ng w _ ks hlen (Nat.zero_le _)
          (by omega) hl
      simp only [List.take_zero, List.nil_append] at r1
      subst r1
      refine ⟨by omega, rfl, ?_, ?_⟩
      · have := generation_loop_length _ _ _ _ _ _
          (show generation_loop total_distance d d.pop_size_ 0 d.pop_ w
              = .ok (kids_sequence ks, _) by rw [generation_loop_kids_erase, hl])
        simpa [hlen] using this
      · intro p hp
        have hb := r4 p hp
        exact ⟨hb.1, hb.2, fun hmem => absurd (hlive p hmem) (by omega)⟩

theorem full_replacement_witness :
    ∃ kids : List (Nat × Nat),
      Deme.compute_next_generation_kids (fun _ => 50) ⟨1 / 10, 4, [0, 1, 2, 3]⟩
        ⟨[⟨3, [0, 1, 2]⟩, ⟨3, [2, 1, 0]⟩, ⟨3, [1, 0, 2]⟩, ⟨3, [0, 2, 1]⟩],
          [1 / 2, 1 / 2, 3 / 2, 1 / 2, 5 / 2, 0, 5 / 2, 7 / 2, 1 / 2], [0, 1, 0, 2, 1, 0, 2]⟩
        = .ok (kids, ⟨1 / 10, 4, [4, 5, 6, 7]⟩,
            ⟨[⟨3, [0, 1, 2]⟩, ⟨3, [2, 1, 0]⟩, ⟨3, [2, 0, 1]⟩, ⟨3, [0, 2, 1]⟩,
              ⟨3, [2, 0, 1]⟩, ⟨3, [0, 2, 1]⟩, ⟨3, [0, 2, 1]⟩, ⟨3, [2, 0, 1]⟩], [], []⟩) ∧
      kids.length = 4 / 2 ∧ [4, 5, 6, 7] = kids_sequence kids ∧
      [4, 5, 6, 7].length = 4 ∧
      ∀ p ∈ [4, 5, 6, 7], 4 ≤ p ∧ p < 8 ∧ p ∉ [0, 1, 2, 3] :=
  full_replacement (fun _ => 50) ⟨1 / 10, 4, [0, 1, 2, 3]⟩ ⟨1 / 10, 4, [4, 5, 6, 7]⟩
    ⟨[⟨3, [0, 1, 2]⟩, ⟨3, [2, 1, 0]⟩, ⟨3, [1, 0, 2]⟩, ⟨3, [0, 2, 1]⟩],
      [1 / 2, 1 / 2, 3 / 2, 1 / 2, 5 / 2, 0, 5 / 2, 7 / 2, 1 / 2], [0, 1, 0, 2, 1, 0, 2]⟩
    ⟨[⟨3, [0, 1, 2]⟩, ⟨3, [2, 1, 0]⟩, ⟨3, [2, 0, 1]⟩, ⟨3, [0, 2, 1]⟩,
      ⟨3, [2, 0, 1]⟩, ⟨3, [0, 2, 1]⟩, ⟨3, [0, 2, 1]⟩, ⟨3, [2, 0, 1]⟩], [], []⟩
    (by decide) (by decide) (by decide) (by decide!)

end TSP
